import Mathlib

set_option maxRecDepth 8192

/-!
Verification of the asset-aware packaging pipeline (web2md).

This file gives a shallow embedding of the packaging core:

* `src/api/lib/tar.ts` — the ustar-style archive encoder (`createHeader`,
  `splitTarPath`, `writeOctal`, `writeString`);
* `src/api/download.ts` — the path sanitizer/deduper (`sanitizeSegment`,
  `sanitizePath`, `dedupePath`), the asset fetcher's size gate and path
  construction (`downloadAsset`, `buildRelativeAssetPath`), the text
  rewriting (`replaceAll`), and the per-run orchestration (`handler`).

Modelling conventions:

* JavaScript strings and Buffers are modelled as `List Nat` (`Bytes`), one
  element per byte / code point.  All concrete inputs used in theorems are
  ASCII, where the UTF-16 / UTF-8 distinction is invisible.
* A Node `Buffer` of length 512 is modelled as a function `Nat → Nat` whose
  writes mask values to `% 256`, matching `Buffer`'s uint8 cells.
* A JS `Set<string>` is modelled by its characteristic function
  `Bytes → Bool`; `Set.has` is application and `Set.add` is a pointwise
  update, which is exactly the observable behaviour of a `Set`.
* Platform built-ins that are not part of the repository (the network
  `fetch`, the WHATWG `new URL` parser, `JSON.stringify`, the
  `Content-Disposition` regex parsing) are oracle parameters; everything
  the repository itself computes is embedded.
* `crypto.createHash('sha256')` is embedded as a full executable SHA-256,
  checked below against standard test vectors.
* The `mapLimit` worker pools write `results[index] = await fn(items[index])`,
  so the result list is the in-order image of the item list; the pools are
  embedded as in-order traversals.  The shared byte counter is only read and
  written inside the synchronous (suspension-free) check-then-increment block
  of `downloadAsset`, so every interleaving of concurrent fetches is some
  sequential order of these atomic steps; the sequential fold below ranges
  over all such orders because it is proved for every item list.
-/

/-- Byte strings: one `Nat` per byte (for ASCII data, per code point). -/
abbrev Bytes := List Nat

/-- Convenience: the byte list of an ASCII string literal. -/
def strBytes (s : String) : Bytes := s.data.map Char.toNat

/-- ECMAScript `\s` (and `String.prototype.trim`) white-space set. -/
def jsWs (c : Nat) : Bool :=
  (9 ≤ c && c ≤ 13) || c == 32 || c == 160 || c == 5760 ||
  (8192 ≤ c && c ≤ 8202) || c == 8232 || c == 8233 || c == 8239 ||
  c == 8287 || c == 12288 || c == 65279

/-- The path-unsafe characters replaced by `sanitizeSegment`:
`\ / : * ? " < > |`. -/
def isBad (c : Nat) : Bool :=
  c == 92 || c == 47 || c == 58 || c == 42 || c == 63 || c == 34 ||
  c == 60 || c == 62 || c == 124

/-- ASCII control characters (used to state the spec's claim). -/
def isCtrl (c : Nat) : Bool := c < 32 || c == 127

/-- Model of `.replace(/\0/g, '')`. -/
def stripNul (s : Bytes) : Bytes := s.filter (fun c => c != 0)

/-- Model of `.replace(/[\\/:*?"<>|]/g, '_')`. -/
def replaceBad (s : Bytes) : Bytes := s.map (fun c => if isBad c then 95 else c)

mutual

/-- Model of `.replace(/\s+/g, ' ')`: outside a white-space run. -/
def collapseWs : Bytes → Bytes
  | [] => []
  | c :: r => if jsWs c then 32 :: collapseRun r else c :: collapseWs r

/-- Model of `.replace(/\s+/g, ' ')`: inside a white-space run (the run has
already emitted its single space). -/
def collapseRun : Bytes → Bytes
  | [] => []
  | c :: r => if jsWs c then collapseRun r else c :: collapseWs r

end

/-- Model of `.trimStart()` (the leading half of `.trim()`). -/
def trimStart (s : Bytes) : Bytes := s.dropWhile jsWs

/-- Model of `.trimEnd()` (the trailing half of `.trim()`). -/
def trimEnd (s : Bytes) : Bytes := (s.reverse.dropWhile jsWs).reverse

/-- Model of `String.prototype.trim`. -/
def jsTrim (s : Bytes) : Bytes := trimEnd (trimStart s)

/-- Embedding of `sanitizeSegment` (src/api/download.ts:32-39): strip NUL,
replace path-unsafe characters with `_`, collapse white-space runs to a
single space, trim, truncate to 80. -/
def sanitizeSegment (input : Bytes) : Bytes :=
  (jsTrim (collapseWs (replaceBad (stripNul input)))).take 80

/-- Claim C8 as stated by the spec, as a decidable predicate on the output of
`sanitizeSegment`: no control characters, none of the nine path-unsafe
characters, white-space runs collapsed, surrounding white-space trimmed
(no leading or trailing white-space in the output), length at most 80. -/
@[reducible] def claimC8Prop (input : Bytes) : Prop :=
  (∀ c ∈ sanitizeSegment input, isCtrl c = false) ∧
  (∀ c ∈ sanitizeSegment input, isBad c = false) ∧
  List.Chain' (fun a b => ¬(jsWs a = true ∧ jsWs b = true)) (sanitizeSegment input) ∧
  (∀ c ∈ (sanitizeSegment input).head?.toList, jsWs c = false) ∧
  (∀ c ∈ (sanitizeSegment input).getLast?.toList, jsWs c = false) ∧
  (sanitizeSegment input).length ≤ 80

/-- Input refuting C8: a SOH control byte (1), then 78 `a`s, a space and `b`.
Only NUL is stripped by the code, so the SOH survives, and the 80-byte
truncation cuts the string right after the interior space. -/
def c8CexInput : Bytes := 1 :: (List.replicate 78 97 ++ [32, 98])

/-!
SHA-256, embedding `crypto.createHash('sha256').update(s).digest('hex')`
(all 32-bit words are `Nat`s reduced `% 2 ^ 32`).  Checked against the
standard test vectors in the theorem section below.
-/

/-- Rotate a 32-bit word right by `n`. -/
def rotr32 (n x : Nat) : Nat := (x / 2 ^ n + x % 2 ^ n * 2 ^ (32 - n)) % 2 ^ 32

/-- Logical right shift of a 32-bit word. -/
def shr32 (n x : Nat) : Nat := x / 2 ^ n

/-- Three-way xor. -/
def xor3 (a b c : Nat) : Nat := Nat.xor (Nat.xor a b) c

/-- SHA-256 big sigma 0. -/
def bsig0 (x : Nat) : Nat := xor3 (rotr32 2 x) (rotr32 13 x) (rotr32 22 x)

/-- SHA-256 big sigma 1. -/
def bsig1 (x : Nat) : Nat := xor3 (rotr32 6 x) (rotr32 11 x) (rotr32 25 x)

/-- SHA-256 small sigma 0. -/
def ssig0 (x : Nat) : Nat := xor3 (rotr32 7 x) (rotr32 18 x) (shr32 3 x)

/-- SHA-256 small sigma 1. -/
def ssig1 (x : Nat) : Nat := xor3 (rotr32 17 x) (rotr32 19 x) (shr32 10 x)

/-- SHA-256 choose function. -/
def chFn (x y z : Nat) : Nat := Nat.xor (Nat.land x y) (Nat.land (2 ^ 32 - 1 - x) z)

/-- SHA-256 majority function. -/
def majFn (x y z : Nat) : Nat := xor3 (Nat.land x y) (Nat.land x z) (Nat.land y z)

/-- The 64 SHA-256 round constants. -/
def shaK : List Nat :=
  [1116352408, 1899447441, 3049323471, 3921009573,
   961987163, 1508970993, 2453635748, 2870763221,
   3624381080, 310598401, 607225278, 1426881987,
   1925078388, 2162078206, 2614888103, 3248222580,
   3835390401, 4022224774, 264347078, 604807628,
   770255983, 1249150122, 1555081692, 1996064986,
   2554220882, 2821834349, 2952996808, 3210313671,
   3336571891, 3584528711, 113926993, 338241895,
   666307205, 773529912, 1294757372, 1396182291,
   1695183700, 1986661051, 2177026350, 2456956037,
   2730485921, 2820302411, 3259730800, 3345764771,
   3516065817, 3600352804, 4094571909, 275423344,
   430227734, 506948616, 659060556, 883997877,
   958139571, 1322822218, 1537002063, 1747873779,
   1955562222, 2024104815, 2227730452, 2361852424,
   2428436474, 2756734187, 3204031479, 3329325298]

/-- The SHA-256 initial hash state. -/
def shaH0 : List Nat :=
  [1779033703, 3144134277, 1013904242, 2773480762,
   1359893119, 2600822924, 528734635, 1541459225]

/-- Big-endian 8-byte encoding of a length in bits. -/
def be64 (n : Nat) : Bytes := (List.range 8).map (fun i => n / 2 ^ (8 * (7 - i)) % 256)

/-- SHA-256 message padding to a multiple of 64 bytes. -/
def sha256pad (msg : Bytes) : Bytes :=
  msg ++ 128 :: (List.replicate ((64 + 56 - (msg.length + 1) % 64) % 64) 0 ++ be64 (8 * msg.length))

/-- Split a padded message into its 64-byte blocks (the fuel always exceeds
the block count at the call site). -/
def chunks64 : Nat → Bytes → List Bytes
  | 0, _ => []
  | fuel + 1, l => if l = [] then [] else l.take 64 :: chunks64 fuel (l.drop 64)

/-- The first 16 words of a block's message schedule. -/
def initW (block : Bytes) : List Nat :=
  (List.range 16).map (fun i =>
    block.getD (4 * i) 0 * 2 ^ 24 + block.getD (4 * i + 1) 0 * 2 ^ 16 +
    block.getD (4 * i + 2) 0 * 2 ^ 8 + block.getD (4 * i + 3) 0)

/-- Extend the message schedule by `k` further words. -/
def extendW : Nat → List Nat → List Nat
  | 0, w => w
  | k + 1, w =>
    extendW k (w ++ [(ssig1 (w.getD (w.length - 2) 0) + w.getD (w.length - 7) 0 +
                      ssig0 (w.getD (w.length - 15) 0) + w.getD (w.length - 16) 0) % 2 ^ 32])

/-- The eight 32-bit working variables of the SHA-256 compression loop. -/
structure ShaState where
  a : Nat
  b : Nat
  c : Nat
  d : Nat
  e : Nat
  f : Nat
  g : Nat
  h : Nat

/-- One SHA-256 compression round on a (constant, schedule-word) pair. -/
def shaRound (st : ShaState) (kw : Nat × Nat) : ShaState :=
  let t1 := (st.h + bsig1 st.e + chFn st.e st.f st.g + kw.1 + kw.2) % 2 ^ 32
  let t2 := (bsig0 st.a + majFn st.a st.b st.c) % 2 ^ 32
  ⟨(t1 + t2) % 2 ^ 32, st.a, st.b, st.c, (st.d + t1) % 2 ^ 32, st.e, st.f, st.g⟩

/-- Compress one 64-byte block into the running hash state. -/
def compressBlock (H : List Nat) (block : Bytes) : List Nat :=
  let w := extendW 48 (initW block)
  let s0 : ShaState := ⟨H.getD 0 0, H.getD 1 0, H.getD 2 0, H.getD 3 0,
                        H.getD 4 0, H.getD 5 0, H.getD 6 0, H.getD 7 0⟩
  let s := (shaK.zip w).foldl shaRound s0
  [(H.getD 0 0 + s.a) % 2 ^ 32, (H.getD 1 0 + s.b) % 2 ^ 32, (H.getD 2 0 + s.c) % 2 ^ 32,
   (H.getD 3 0 + s.d) % 2 ^ 32, (H.getD 4 0 + s.e) % 2 ^ 32, (H.getD 5 0 + s.f) % 2 ^ 32,
   (H.getD 6 0 + s.g) % 2 ^ 32, (H.getD 7 0 + s.h) % 2 ^ 32]

/-- The 32 digest bytes of SHA-256. -/
def sha256 (msg : Bytes) : Bytes :=
  let padded := sha256pad msg
  let Hf := (chunks64 (padded.length + 1) padded).foldl compressBlock shaH0
  Hf.flatMap (fun w => [w / 2 ^ 24 % 256, w / 2 ^ 16 % 256, w / 2 ^ 8 % 256, w % 256])

/-- Lowercase hex digit of a nibble, as Node's `digest('hex')` prints it. -/
def hexDigitChar (n : Nat) : Nat := if n < 10 then 48 + n else 87 + n

/-- Lowercase hex rendering of a byte string. -/
def bytesToHex (bs : Bytes) : Bytes :=
  bs.flatMap (fun b => [hexDigitChar (b / 16), hexDigitChar (b % 16)])

/-- Model of `crypto.createHash('sha256').update(input).digest('hex')`. -/
def sha256hex (msg : Bytes) : Bytes := bytesToHex (sha256 msg)

/-- Embedding of `shortHash` (src/api/download.ts:28-30): the first 10 hex
characters of the SHA-256 digest. -/
def shortHash (input : Bytes) : Bytes := (sha256hex input).take 10

/-!
The path sanitizer/deduper of src/api/download.ts.
-/

/-- Little-endian base-`b` digits, structurally recursive on a fuel bound so
the kernel can evaluate it (proved equal to `Nat.digits` below). -/
def digitsAux (b : Nat) : Nat → Nat → List Nat
  | 0, _ => []
  | fuel + 1, n => if n = 0 then [] else n % b :: digitsAux b fuel (n / b)

/-- Little-endian base-`b` digits of `n` (fuel instantiated to `n`). -/
def digitsLE (b n : Nat) : List Nat := digitsAux b n n

/-- Decimal ASCII rendering of a natural number, as JS `String(n)` /
template interpolation produce it (`(0).toString()` is `"0"`). -/
def natDec (n : Nat) : Bytes :=
  if n = 0 then [48] else (digitsLE 10 n).reverse.map (· + 48)

/-- Model of `String.prototype.lastIndexOf` for a single character, as an
option (JS returns `-1` when the character does not occur). -/
def lastIdxOf (l : Bytes) (c : Nat) : Option Nat :=
  match l.reverse.findIdx? (· == c) with
  | some j => some (l.length - 1 - j)
  | none => none

/-- Embedding of `sanitizePath` (src/api/download.ts:41-49): normalize
backslashes to `/`, split on `/`, drop empty segments, sanitize each
segment, drop segments that sanitized to nothing, and rejoin with `/`. -/
def sanitizePath (input : Bytes) : Bytes :=
  List.intercalate [47]
    (((((input.map (fun c => if c = 92 then 47 else c)).splitOn 47).filter
        (fun p => p ≠ [])).map sanitizeSegment).filter (fun p => p ≠ []))

/-- A JS `Set<string>` as its membership function (`has` is application,
`add` is `setAdd`). -/
def SetFn : Type := Bytes → Bool

/-- Model of `Set.prototype.add`. -/
def setAdd (s : SetFn) (p : Bytes) : SetFn := fun q => if q = p then true else s q

/-- The empty `Set` (`new Set()`). -/
def setEmpty : SetFn := fun _ => false

/-- The candidate `` `${base}_${i}${ext}` `` tried by `dedupePath`. -/
def dedupeCand (base ext : Bytes) (i : Nat) : Bytes := base ++ [95] ++ natDec i ++ ext

/-- The numeric-suffix loop of `dedupePath` (`for (let i = 2; i < 1000; i++)`):
return the first unused candidate, or none when all attempts collide.  The
fuel counts remaining iterations; the loop is entered with `998` and `i = 2`. -/
def dedupeScan (base ext : Bytes) (used : SetFn) : Nat → Nat → Option Bytes
  | 0, _ => none
  | fuel + 1, i =>
    if used (dedupeCand base ext i) then dedupeScan base ext used fuel (i + 1)
    else some (dedupeCand base ext i)

/-- Embedding of `dedupePath` (src/api/download.ts:100-118).  Returns the
chosen path together with the updated registry (the source mutates the
`Set` in place). -/
def dedupePath (path : Bytes) (used : SetFn) : Bytes × SetFn :=
  if used path then
    let idx := lastIdxOf path 46
    let base := match idx with | some i => path.take i | none => path
    let ext := match idx with | some i => path.drop i | none => ([] : Bytes)
    match dedupeScan base ext used 998 2 with
    | some c => (c, setAdd used c)
    | none =>
      let fb := base ++ [95] ++ shortHash path ++ ext
      (fb, setAdd used fb)
  else (path, setAdd used path)

/-- Feeding a list of paths through `dedupePath` with one shared registry,
collecting the returned paths (the setting of claim C2). -/
def dedupeRun (used : SetFn) : List Bytes → List Bytes × SetFn
  | [] => ([], used)
  | p :: ps =>
    let r := dedupePath p used
    let rest := dedupeRun r.2 ps
    (r.1 :: rest.1, rest.2)

/-- Whether a `dedupePath` call on `path` against `used` would fall through
to the hash fallback: the path itself and all 998 numeric candidates are
already registered. -/
def dedupeHitsFallback (path : Bytes) (used : SetFn) : Bool :=
  used path &&
    (let idx := lastIdxOf path 46
     let base := match idx with | some i => path.take i | none => path
     let ext := match idx with | some i => path.drop i | none => ([] : Bytes)
     (dedupeScan base ext used 998 2).isNone)

/-- Whether no call in a `dedupeRun` sequence reaches the hash fallback. -/
def noFallbackRun (used : SetFn) : List Bytes → Bool
  | [] => true
  | p :: ps => !dedupeHitsFallback p used && noFallbackRun (dedupePath p used).2 ps

/-- Claim C2 as stated: all paths returned by a shared-registry sequence of
`dedupePath` calls are pairwise distinct. -/
@[reducible] def claimC2Prop (used : SetFn) (ps : List Bytes) : Prop :=
  (dedupeRun used ps).1.Pairwise (· ≠ ·)

/-!
The archive encoder of src/api/lib/tar.ts.  A 512-byte header `Buffer` is a
function `Nat → Nat`; every write masks its value with `% 256` because
`Buffer` cells are unsigned bytes.  Only indices `< 512` are ever read.
-/

/-- A Node `Buffer` as a byte-valued function. -/
def Buf : Type := Nat → Nat

/-- Model of `Buffer.alloc(512, 0)`. -/
def bufZero : Buf := fun _ => 0

/-- Model of `buffer.write(str, offset, length, 'ascii')`: overwrite
`bs.length` cells starting at `off`. -/
def bufWrite (b : Buf) (off : Nat) (bs : Bytes) : Buf := fun i =>
  if off ≤ i ∧ i < off + bs.length then bs.getD (i - off) 0 % 256 else b i

/-- Model of `buffer.fill(v, s, e)` (the end index is exclusive). -/
def bufFill (b : Buf) (s e v : Nat) : Buf := fun i =>
  if s ≤ i ∧ i < e then v % 256 else b i

/-- Model of `buffer[j] = v`. -/
def bufSet (b : Buf) (j v : Nat) : Buf := fun i => if i = j then v % 256 else b i

/-- Embedding of `writeString` (src/api/lib/tar.ts:27-30): truncate the value
to the field length and write it. -/
def writeStringB (b : Buf) (off len : Nat) (v : Bytes) : Buf :=
  bufWrite b off (v.take len)

/-- Octal ASCII rendering of a natural number, as JS `n.toString(8)`
produces it. -/
def octBytes (n : Nat) : Bytes :=
  if n = 0 then [48] else (digitsLE 8 n).reverse.map (· + 48)

/-- Model of `String.prototype.padStart(len, '0')` (no truncation when the
string is already longer). -/
def padZeros (len : Nat) (s : Bytes) : Bytes := List.replicate (len - s.length) 48 ++ s

/-- Embedding of `writeOctal` (src/api/lib/tar.ts:32-37): zero-padded octal in
the first `len - 1` cells, then a terminating NUL. -/
def writeOctalB (b : Buf) (off len n : Nat) : Buf :=
  bufSet (writeStringB b off (len - 1) (padZeros (len - 1) (octBytes n))) (off + len - 1) 0

/-- Embedding of `toPosixPath` (src/api/lib/tar.ts:19-21): backslashes to
slashes, then strip leading slashes. -/
def toPosixPath (path : Bytes) : Bytes :=
  (path.map (fun c => if c = 92 then 47 else c)).dropWhile (fun c => c == 47)

/-- The synthetic `path_{hash16}` fallback name of `splitTarPath`. -/
def tarFallback (n : Bytes) : Bytes × Bytes :=
  (strBytes "path_" ++ (sha256hex n).take 16, [])

/-- Embedding of `splitTarPath` (src/api/lib/tar.ts:39-56), returning the
`(name, prefixField)` pair. -/
def splitTarPath (path : Bytes) : Bytes × Bytes :=
  let n := toPosixPath path
  if n.length ≤ 100 then (n, [])
  else
    match lastIdxOf n 47 with
    | some idx =>
      if 0 < idx then
        if (n.drop (idx + 1)).length ≤ 100 ∧ (n.take idx).length ≤ 155 then
          (n.drop (idx + 1), n.take idx)
        else tarFallback n
      else tarFallback n
    | none => tarFallback n

/-- The header state after the first fifteen writes of `createHeader`
(src/api/lib/tar.ts:58-80): everything up to and including the `prefix`
field, with the checksum field still holding its eight ASCII spaces. -/
def headerPre (path : Bytes) (size mode mtime : Nat) (typeflag : Nat) : Buf :=
  let split := splitTarPath path
  let h1 := writeStringB bufZero 0 100 split.1
  let h2 := writeOctalB h1 100 8 mode
  let h3 := writeOctalB h2 108 8 0
  let h4 := writeOctalB h3 116 8 0
  let h5 := writeOctalB h4 124 12 size
  let h6 := writeOctalB h5 136 12 mtime
  let h7 := bufFill h6 148 156 32
  let h8 := bufSet h7 156 typeflag
  let h9 := writeStringB h8 257 6 (strBytes "ustar")
  let h10 := bufSet h9 262 0
  let h11 := writeStringB h10 263 2 (strBytes "00")
  let h12 := writeStringB h11 265 32 (strBytes "root")
  let h13 := writeStringB h12 297 32 (strBytes "root")
  let h14 := writeOctalB h13 329 8 0
  let h15 := writeOctalB h14 337 8 0
  writeStringB h15 345 155 split.2

/-- The unsigned sum of the 512 header bytes. -/
def headerSum (b : Buf) : Nat := ((List.range 512).map b).sum

/-- Embedding of `createHeader` (src/api/lib/tar.ts:58-90): build the header,
sum its bytes while the checksum field holds spaces, then write the
zero-padded octal checksum, a NUL and a space into bytes 148-155. -/
def createHeader (path : Bytes) (size mode mtime : Nat) (typeflag : Nat) : Buf :=
  let pre := headerPre path size mode mtime typeflag
  let chk := padZeros 6 (octBytes (headerSum pre))
  bufSet (bufSet (writeStringB pre 148 6 chk) 154 0) 155 32

/-- Predicate of claim C3, part two: `splitTarPath`'s input admits a clean
prefix+name split at slash position `i` (trailing part at most 100 bytes,
leading part nonempty and at most 155 bytes). -/
@[reducible] def cleanSplitAt (n : Bytes) (i : Nat) : Prop :=
  0 < i ∧ i < n.length ∧ n.getD i 0 = 47 ∧
    (n.drop (i + 1)).length ≤ 100 ∧ (n.take i).length ≤ 155

/-- Claim C3 as stated: short paths go wholly into `name` with empty
`prefixField`; a path of 101-255 bytes that splits cleanly at some slash is
encoded by such a split, never by the synthetic fallback. -/
@[reducible] def claimC3Prop (p : Bytes) : Prop :=
  ((toPosixPath p).length ≤ 100 → splitTarPath p = (toPosixPath p, [])) ∧
  (100 < (toPosixPath p).length → (toPosixPath p).length ≤ 255 →
    (∃ i, cleanSplitAt (toPosixPath p) i) →
    ∃ i, cleanSplitAt (toPosixPath p) i ∧
      splitTarPath p = ((toPosixPath p).drop (i + 1), (toPosixPath p).take i))

/-- The path refuting C3: 155 `a`s, `/b/`, then 97 `c`s (255 bytes).  It
splits cleanly at position 155, but the code only tries the last slash
(position 157), where the leading part has 157 > 155 bytes, so it falls
back to the synthetic hash name. -/
def c3CexPath : Bytes :=
  List.replicate 155 97 ++ [47, 98, 47] ++ List.replicate 97 99

/-!
Text rewriting: `replaceAll` (src/api/download.ts:227-230) is
`text.split(search).join(replacement)` guarded by `if (!search) return text`.
`String.prototype.split` with a string separator removes the non-overlapping
left-to-right occurrences of the separator.
-/

/-- Index of the leftmost occurrence of `sep` in `t` (scan of the suffixes of
`t`, structurally recursive). -/
def findOccGo (sep : Bytes) : Bytes → Nat → Option Nat
  | s, i =>
    if sep.isPrefixOf s then some i
    else
      match s with
      | [] => none
      | _ :: r => findOccGo sep r (i + 1)

/-- Index of the leftmost occurrence of `sep` in `t`, if any. -/
def findOcc (t sep : Bytes) : Option Nat := findOccGo sep t 0

/-- Model of `text.split(sep)` for a nonempty separator: cut at the leftmost
occurrence and continue after it.  The fuel strictly exceeds the text length
at every call site, which makes it irrelevant (proved below). -/
def splitGo (sep : Bytes) : Nat → Bytes → List Bytes
  | 0, t => [t]
  | fuel + 1, t =>
    match findOcc t sep with
    | none => [t]
    | some i => t.take i :: splitGo sep fuel (t.drop (i + sep.length))

/-- Model of `text.split(sep)` (nonempty `sep`; `replaceAll` never calls it
with an empty separator). -/
def splitOnSub (t sep : Bytes) : List Bytes := splitGo sep (t.length + 1) t

/-- Embedding of `replaceAll` (src/api/download.ts:227-230). -/
def replaceAll (t search repl : Bytes) : Bytes :=
  if search = [] then t else List.intercalate repl (splitOnSub t search)

/-- The per-job rewriting loop of the handler (src/api/download.ts:331-339):
one `replaceAll` per successfully downloaded asset, in order, mapping each
`originalUrl` to its `relativePath`. -/
def rewriteMarkdown (md : Bytes) (ok : List (Bytes × Bytes)) : Bytes :=
  ok.foldl (fun m a => replaceAll m a.1 a.2) md

/-- Claim C5 as stated, for one job: after the rewriting loop, no downloaded
asset's `originalUrl` survives in the text and its `relativePath` stands
where the URL occurred, while every failed asset's URL is still present
unchanged (whenever it occurred at all). -/
@[reducible] def claimC5Prop (md : Bytes) (ok : List (Bytes × Bytes))
    (failed : List Bytes) : Prop :=
  (∀ a ∈ ok, ¬ a.1 <:+: rewriteMarkdown md ok ∧
    (a.1 <:+: md → a.2 <:+: rewriteMarkdown md ok)) ∧
  (∀ u ∈ failed, u <:+: md → u <:+: rewriteMarkdown md ok)

/-- Markdown refuting C5: `see http://x/ab now`. -/
def c5CexMd : Bytes := strBytes "see http://x/ab now"

/-- The successfully downloaded asset refuting C5: its URL `http://x/a` is a
proper substring of the failed asset's URL `http://x/ab`, so rewriting it
destroys the failed asset's URL in the text. -/
def c5CexOk : List (Bytes × Bytes) := [(strBytes "http://x/a", strBytes "assets/images/x/a")]

/-- The failed asset URL of the C5 counterexample. -/
def c5CexFailed : List Bytes := [strBytes "http://x/ab"]

/-!
The asset fetcher `downloadAsset` (src/api/download.ts:132-209) and the
per-run orchestration of `handler` (src/api/download.ts:253-367).  The
platform pieces — the network round-trip (with its status check, timeout and
`Content-Disposition`/URL-derived filename parsing) and the WHATWG URL
parser — enter as oracle parameters; everything after the response is
received is embedded.
-/

/-- The two asset kinds. -/
inductive AssetKind where
  | images
  | files
deriving DecidableEq

/-- The kind as the string interpolated into paths and filenames. -/
def kindStr : AssetKind → Bytes
  | AssetKind.images => strBytes "images"
  | AssetKind.files => strBytes "files"

/-- Hostname and pathname of a parsed URL (the fields of the WHATWG `URL`
object that the packaging core reads). -/
structure UrlParts where
  hostname : Bytes
  pathname : Bytes
deriving DecidableEq

/-- A successful network response, as the fetcher sees it after the platform
work is done: the parsed asset URL, the `content-type` header, the filename
resolved from `Content-Disposition` or the URL path (if any), and the body.
An unreachable, non-OK, timed-out or unparseable URL is `none` at the
oracle. -/
structure NetResp where
  parts : UrlParts
  contentType : Bytes
  rawName : Option Bytes
  body : Bytes
deriving DecidableEq

/-- A successful acquisition (`DownloadedAsset` in src/api/download.ts). -/
structure DownloadedAsset where
  originalUrl : Bytes
  relativePath : Bytes
  content : Bytes
deriving DecidableEq

/-- The per-asset byte ceiling (25 MB). -/
def MAX_ASSET_BYTES : Nat := 25 * 1024 * 1024

/-- The per-run cumulative byte ceiling (150 MB). -/
def MAX_TOTAL_ASSET_BYTES : Nat := 150 * 1024 * 1024

/-- ASCII lowercasing, as `String.prototype.toLowerCase` acts on ASCII. -/
def asciiLower (s : Bytes) : Bytes :=
  s.map (fun c => if 65 ≤ c ∧ c ≤ 90 then c + 32 else c)

/-- Embedding of `guessExtFromContentType` (src/api/download.ts:57-82): the
fixed MIME-to-extension table, applied to the content type with parameters
stripped, trimmed and lowercased. -/
def guessExtFromContentType (contentType : Bytes) : Bytes :=
  let ct := asciiLower (jsTrim (contentType.takeWhile (fun c => c != 59)))
  if ct = strBytes "image/jpeg" then strBytes ".jpg"
  else if ct = strBytes "image/jpg" then strBytes ".jpg"
  else if ct = strBytes "image/png" then strBytes ".png"
  else if ct = strBytes "image/gif" then strBytes ".gif"
  else if ct = strBytes "image/webp" then strBytes ".webp"
  else if ct = strBytes "image/svg+xml" then strBytes ".svg"
  else if ct = strBytes "application/pdf" then strBytes ".pdf"
  else if ct = strBytes "application/zip" then strBytes ".zip"
  else if ct = strBytes "application/x-zip-compressed" then strBytes ".zip"
  else if ct = strBytes "application/x-rar-compressed" then strBytes ".rar"
  else if ct = strBytes "application/msword" then strBytes ".doc"
  else if ct = strBytes "application/vnd.openxmlformats-officedocument.wordprocessingml.document"
    then strBytes ".docx"
  else if ct = strBytes "application/vnd.ms-powerpoint" then strBytes ".ppt"
  else if ct = strBytes "application/vnd.openxmlformats-officedocument.presentationml.presentation"
    then strBytes ".pptx"
  else if ct = strBytes "application/vnd.ms-excel" then strBytes ".xls"
  else if ct = strBytes "application/vnd.openxmlformats-officedocument.spreadsheetml.sheet"
    then strBytes ".xlsx"
  else if ct = strBytes "text/plain" then strBytes ".txt"
  else if ct = strBytes "text/markdown" then strBytes ".md"
  else if ct = strBytes "text/csv" then strBytes ".csv"
  else if ct = strBytes "application/json" then strBytes ".json"
  else []

/-- Embedding of `buildRelativeAssetPath` (src/api/download.ts:120-130):
`assets/{kind}/{host}/{original-dir}/{filename}`, every segment
sanitized. -/
def buildRelativeAssetPath (assetUrl : Bytes) (u : UrlParts) (kind : AssetKind)
    (filename : Bytes) : Bytes :=
  let host := if sanitizeSegment u.hostname = [] then strBytes "host" else sanitizeSegment u.hostname
  let dir := sanitizePath (List.intercalate [47] ((u.pathname.splitOn 47).dropLast))
  let safeFilename :=
    if sanitizeSegment filename = [] then kindStr kind ++ [95] ++ shortHash assetUrl
    else sanitizeSegment filename
  let base := if dir = [] then safeFilename else dir ++ [47] ++ safeFilename
  strBytes "assets/" ++ kindStr kind ++ [47] ++ host ++ [47] ++ base

/-- Embedding of `downloadAsset` (src/api/download.ts:132-209) from the point
where the response is available: the text/html attachment guard, the empty,
per-asset and cumulative size gates with the atomic counter increment, the
filename chain (resolved name or `{kind}_{shortHash}`, sanitized, extension
inferred from the MIME table, query-string hash suffix), relative-path
construction and deduplication.  Returns the optional asset together with
the updated registry and counter. -/
def downloadAsset (net : Bytes → Option NetResp) (assetUrl : Bytes) (kind : AssetKind)
    (used : SetFn) (total : Nat) : Option DownloadedAsset × SetFn × Nat :=
  match net assetUrl with
  | none => (none, used, total)
  | some r =>
    if kind = AssetKind.files ∧ (strBytes "text/html").isPrefixOf (asciiLower r.contentType) then
      (none, used, total)
    else if r.body.length = 0 then (none, used, total)
    else if MAX_ASSET_BYTES < r.body.length then (none, used, total)
    else if MAX_TOTAL_ASSET_BYTES < total + r.body.length then (none, used, total)
    else
      let total2 := total + r.body.length
      let fname0 :=
        match r.rawName with
        | some nm => nm
        | none => kindStr kind ++ [95] ++ shortHash assetUrl
      let fname1 :=
        if sanitizeSegment fname0 = [] then kindStr kind ++ [95] ++ shortHash assetUrl
        else sanitizeSegment fname0
      let fname2 :=
        if fname1.contains 46 then fname1
        else
          let e := guessExtFromContentType r.contentType
          if e = [] then fname1 else fname1 ++ e
      let fname3 :=
        if assetUrl.contains 63 then
          match lastIdxOf fname2 46 with
          | some i => fname2.take i ++ strBytes "__" ++ shortHash assetUrl ++ fname2.drop i
          | none => fname2 ++ strBytes "__" ++ shortHash assetUrl
        else fname2
      let rp0 := buildRelativeAssetPath assetUrl r.parts kind fname3
      let rp := dedupePath rp0 used
      (some ⟨assetUrl, rp.1, r.body⟩, rp.2, total2)

/-- The asset download loop of one job: `downloadAsset` over the scheduled
(kind, url) list, threading the job's registry and the run's shared byte
counter.  The `mapLimit(…, ASSET_CONCURRENCY, …)` pool writes
`results[index]`, so the collected list is in item order; the shared-counter
steps of any concurrent interleaving are some sequential order of these
atomic check-then-increment steps, all of which this fold ranges over. -/
def runDownloads (net : Bytes → Option NetResp) :
    List (AssetKind × Bytes) → SetFn → Nat → List (Option DownloadedAsset) × SetFn × Nat
  | [], used, total => ([], used, total)
  | (k, u) :: rest, used, total =>
    let r := downloadAsset net u k used total
    let rs := runDownloads net rest r.2.1 r.2.2
    (r.1 :: rs.1, rs.2.1, rs.2.2)

/-- The successful downloads of an asset loop's result list. -/
def acceptedAssets (rs : List (Option DownloadedAsset)) : List DownloadedAsset :=
  rs.filterMap id

/-!
The packaging orchestration of `handler` (src/api/download.ts:253-367).
-/

/-- The per-URL extraction result consumed from the (external) extractor:
`result.url/title/author/date/content`, with absent fields as empty strings
(JS `undefined || ''`). -/
structure ExtractResult where
  url : Bytes
  title : Bytes
  author : Bytes
  date : Bytes
  content : Bytes
deriving DecidableEq

/-- The asset manifest produced by the extractor for one job. -/
structure AssetManifest where
  images : List Bytes
  files : List Bytes
deriving DecidableEq

/-- One job's extraction outcome: an error string, or a result with its
asset manifest. -/
inductive Outcome where
  | err (e : Bytes)
  | ok (r : ExtractResult) (assets : AssetManifest)
deriving DecidableEq

/-- The caller's packaging options. -/
structure PackageOptions where
  downloadImages : Bool
  downloadFiles : Bool
deriving DecidableEq

/-- Embedding of `pickAssets` (src/api/download.ts:246-251): the manifest
lists with opted-out kinds replaced by empty lists. -/
def pickAssets (manifest : AssetManifest) (options : PackageOptions) : AssetManifest :=
  ⟨if options.downloadImages then manifest.images else [],
   if options.downloadFiles then manifest.files else []⟩

/-- The combined (kind, url) list handed to the asset pool for one job
(src/api/download.ts:322-329): images first, then files.  This is exactly
the list of network calls made for the job's assets. -/
def scheduledAssets (manifest : AssetManifest) (options : PackageOptions) :
    List (AssetKind × Bytes) :=
  (pickAssets manifest options).images.map (fun u => (AssetKind.images, u)) ++
    (pickAssets manifest options).files.map (fun u => (AssetKind.files, u))

/-- Embedding of `buildArticleMarkdown` (src/api/download.ts:232-244). -/
def buildArticleMarkdown (r : ExtractResult) : Bytes :=
  let lines :=
    (if r.title ≠ [] then [strBytes "# " ++ r.title] else []) ++
    [strBytes "**来源**: " ++ r.url] ++
    (if r.author ≠ [] then [strBytes "**作者**: " ++ r.author] else []) ++
    (if r.date ≠ [] then [strBytes "**日期**: " ++ r.date] else []) ++
    [[], strBytes "---", [], r.content]
  jsTrim (List.intercalate [10] lines) ++ [10]

/-- Embedding of `safeArticleFolder` (src/api/download.ts:51-55); the
hostname of the validated article URL is supplied by the URL-parser
oracle. -/
def safeArticleFolder (host : Bytes) (title : Bytes) (index : Nat) : Bytes :=
  let pfx := padZeros 3 (natDec (index + 1))
  let base :=
    if sanitizeSegment title ≠ [] then sanitizeSegment title
    else if sanitizeSegment host ≠ [] then sanitizeSegment host
    else strBytes "article_" ++ pfx
  pfx ++ [95] ++ base

/-- The error placeholder document of a failed job
(src/api/download.ts:308). -/
def errorMdContent (url e : Bytes) : Bytes :=
  strBytes "# 提取失败\n\n**来源**: " ++ url ++ strBytes "\n\n**错误**: " ++ e ++ [10]

/-- One (path, content) file entry pushed into the archive. -/
structure TarEntryM where
  path : Bytes
  content : Bytes
deriving DecidableEq

/-- One record of `manifest.results`. -/
structure JobRecord where
  url : Bytes
  folder : Bytes
  ok : Bool
  error : Option Bytes
  images : Option Nat
  files : Option Nat
  downloaded : Option Nat
deriving DecidableEq

/-- The run-level manifest object. -/
structure ManifestM where
  total : Nat
  success : Nat
  failed : Nat
  results : List JobRecord
deriving DecidableEq

/-- One iteration of the handler's per-job loop
(src/api/download.ts:304-352): an extraction error yields the error
placeholder entry; a success runs the asset loop with a fresh per-job
registry and the shared byte counter, rewrites the markdown and emits the
asset entries followed by `index.md`.  Returns the manifest record, the
job's archive entries and the updated shared counter. -/
def processJob (net : Bytes → Option NetResp) (host : Bytes → Bytes)
    (options : PackageOptions) (index : Nat) (url : Bytes) (outcome : Outcome)
    (total : Nat) : JobRecord × List TarEntryM × Nat :=
  match outcome with
  | Outcome.err e =>
    let folder := safeArticleFolder (host url) [] index
    (⟨url, folder, false, some e, none, none, none⟩,
     [⟨folder ++ [47] ++ strBytes "error.md", errorMdContent url e⟩], total)
  | Outcome.ok r assets =>
    let folder := safeArticleFolder (host url) r.title index
    let md0 := buildArticleMarkdown r
    let picked := pickAssets assets options
    let dl := runDownloads net (scheduledAssets assets options) setEmpty total
    let okAssets := acceptedAssets dl.1
    let markdown := rewriteMarkdown md0 (okAssets.map (fun a => (a.originalUrl, a.relativePath)))
    (⟨url, folder, true, none, some picked.images.length, some picked.files.length,
        some okAssets.length⟩,
     okAssets.map (fun a => ⟨folder ++ [47] ++ a.relativePath, a.content⟩) ++
       [⟨folder ++ [47] ++ strBytes "index.md", markdown⟩],
     dl.2.2)

/-- The handler's job loop over the indexed (url, outcome) list, threading
the shared byte counter and collecting each job's record and entries. -/
def runJobs (net : Bytes → Option NetResp) (host : Bytes → Bytes)
    (options : PackageOptions) :
    List (Nat × Bytes × Outcome) → Nat → List (JobRecord × List TarEntryM) × Nat
  | [], total => ([], total)
  | (i, u, oc) :: rest, total =>
    let r := processJob net host options i u oc total
    let rs := runJobs net host options rest r.2.2
    ((r.1, r.2.1) :: rs.1, rs.2)

/-- A full validated run (src/api/download.ts:292-358): extract every URL
(the article pool preserves indices), run the job loop from a zero byte
counter, assemble the manifest (`total` is the URL count, `success`/`failed`
count the loop's increments) and append the serialized manifest as the last
archive entry.  `jsonSer` is the `JSON.stringify` oracle. -/
def processRun (net : Bytes → Option NetResp) (host : Bytes → Bytes)
    (extract : Bytes → Outcome) (jsonSer : ManifestM → Bytes)
    (options : PackageOptions) (urls : List Bytes) : ManifestM × List TarEntryM :=
  let items := urls.enum.map (fun p => (p.1, p.2, extract p.2))
  let outs := (runJobs net host options items 0).1
  let m : ManifestM :=
    ⟨urls.length, (outs.filter (fun o => o.1.ok)).length,
     (outs.filter (fun o => !o.1.ok)).length, outs.map (fun o => o.1)⟩
  (m, (outs.map (fun o => o.2)).flatten ++ [⟨strBytes "manifest.json", jsonSer m⟩])

/-!
Request validation and options (src/api/download.ts:268-290).
-/

/-- A JavaScript value as it can appear in a JSON request body field. -/
inductive JSVal where
  | undef
  | null
  | bool (b : Bool)
  | num (n : Int)
  | str (s : Bytes)
deriving DecidableEq

/-- JS truthiness of a body value (the `body.url ? [body.url] : []` test). -/
def jsTruthy : JSVal → Bool
  | JSVal.undef => false
  | JSVal.null => false
  | JSVal.bool b => b
  | JSVal.num n => n != 0
  | JSVal.str s => s != []

/-- The request body fields the handler reads.  `urls` is `some` exactly when
`Array.isArray(body.urls)` holds; `url` is any JS value. -/
structure BodyM where
  urls : Option (List Bytes)
  url : JSVal
  downloadImages : JSVal
  downloadFiles : JSVal

/-- The URL list the handler derives from the body
(src/api/download.ts:270). -/
def bodyUrls (body : BodyM) : List Bytes :=
  match body.urls with
  | some l => l
  | none =>
    if jsTruthy body.url then
      match body.url with
      | JSVal.str s => [s]
      | _ => []
    else []

/-- The options the handler derives from the body
(src/api/download.ts:271-274): each kind is enabled unless the field is
strictly (`!==`) the boolean `false`. -/
def optionsOf (body : BodyM) : PackageOptions :=
  ⟨decide (body.downloadImages ≠ JSVal.bool false),
   decide (body.downloadFiles ≠ JSVal.bool false)⟩

/-- The protocol whitelist test of the validation loop
(src/api/download.ts:283-290): `new URL(url)` must succeed and the protocol
must be `http:` or `https:`.  `parse` is the WHATWG URL-parser oracle
(`none` models a throwing constructor). -/
def validUrl (parse : Bytes → Option (Bytes × UrlParts)) (u : Bytes) : Bool :=
  match parse u with
  | none => false
  | some pr => pr.1 == strBytes "http:" || pr.1 == strBytes "https:"

/-- The handler's result: a 400 validation rejection (carrying the error
message, produced before any extraction or fetch), or the manifest and
archive entries of a completed run. -/
inductive HandlerOut where
  | invalid (msg : Bytes)
  | okRun (m : ManifestM) (entries : List TarEntryM)

/-- The MAX_URLS bound (src/api/download.ts:9). -/
def MAX_URLS : Nat := 20

/-- Embedding of the handler's validated core (src/api/download.ts:268-363):
the three validation gates in source order — empty list, list too long,
first invalid URL — each answering 400 before any job starts; otherwise the
full packaging run. -/
def handlerRun (parse : Bytes → Option (Bytes × UrlParts))
    (net : Bytes → Option NetResp) (host : Bytes → Bytes)
    (extract : Bytes → Outcome) (jsonSer : ManifestM → Bytes)
    (body : BodyM) : HandlerOut :=
  let urls := bodyUrls body
  if urls.length = 0 then HandlerOut.invalid (strBytes "请求体必须包含 url 或 urls")
  else if MAX_URLS < urls.length then HandlerOut.invalid (strBytes "单次最多处理 20 个 URL")
  else
    match urls.find? (fun u => !validUrl parse u) with
    | some u => HandlerOut.invalid (strBytes "无效的 URL: " ++ u)
    | none =>
      let run := processRun net host extract jsonSer (optionsOf body) urls
      HandlerOut.okRun run.1 run.2

/-- The registry used to refute C2: exactly `a` and the numeric candidates
`a_2` … `a_999` are already taken (the digit block recognises the decimal
renderings of `2` … `999`: one to three digits, no leading zero, value at
least `2`), so a call on `a` must fall through to the hash fallback. -/
def c2CexUsed : SetFn := fun p =>
  p == strBytes "a" ||
    (match p with
     | 97 :: 95 :: rest =>
       rest.all (fun c => 48 ≤ c && c ≤ 57) && decide (1 ≤ rest.length) &&
         decide (rest.length ≤ 3) && rest.headD 0 != 48 &&
         (decide (2 ≤ rest.length) || 50 ≤ rest.headD 0)
     | _ => false)


/-!
Theorems.  First the SHA-256 embedding is checked against the standard
FIPS 180-2 test vectors, then each claim is settled.
-/

/-- The SHA-256 embedding matches the standard one-block test vectors. -/
theorem sha256hex_vectors :
    sha256hex [] = strBytes "e3b0c44298fc1c149afbf4c8996fb92427ae41e4649b934ca495991b7852b855" ∧
    sha256hex (strBytes "abc") =
      strBytes "ba7816bf8f01cfea414140de5dae2223b00361a396177a9cb410ff61f20015ad" := by
  constructor <;> decide

/-- The SHA-256 embedding matches the standard two-block test vector. -/
theorem sha256hex_vector_two_blocks :
    sha256hex (strBytes "abcdbcdecdefdefgefghfghighijhijkijkljklmklmnlmnomnopnopq") =
      strBytes "248d6a61d20638b8e5c026930c3e6039a33ce45964ff2167f6ecedd419db06c1" := by
  decide

/-!
Claim C8 (`sanitizeSegment`).
-/

/-- Members of `stripNul s` are non-NUL members of `s`. -/
theorem mem_stripNul {c : Nat} {s : Bytes} (h : c ∈ stripNul s) : c ∈ s ∧ c ≠ 0 := by
  simpa [stripNul, List.mem_filter] using h

/-- Members of `replaceBad s` are underscores or non-path-unsafe members
of `s`. -/
theorem mem_replaceBad {c : Nat} {s : Bytes} (h : c ∈ replaceBad s) :
    c = 95 ∨ (c ∈ s ∧ isBad c = false) := by
  simp only [replaceBad, List.mem_map] at h
  obtain ⟨d, hd, hEq⟩ := h
  by_cases hb : isBad d
  · rw [if_pos hb] at hEq
    exact Or.inl hEq.symm
  · rw [if_neg hb] at hEq
    subst hEq
    exact Or.inr ⟨hd, Bool.eq_false_iff.mpr hb⟩

/-- Members of the white-space-collapsed string are single spaces or
non-white-space members of the input. -/
theorem collapse_mem (s : Bytes) :
    (∀ c ∈ collapseWs s, c = 32 ∨ (c ∈ s ∧ jsWs c = false)) ∧
    (∀ c ∈ collapseRun s, c = 32 ∨ (c ∈ s ∧ jsWs c = false)) := by
  induction s with
  | nil =>
    constructor <;> intro c hc <;> simp [collapseWs, collapseRun] at hc
  | cons a r ih =>
    obtain ⟨ihW, ihR⟩ := ih
    have step : ∀ t : Bytes, (∀ c ∈ t, c = 32 ∨ (c ∈ r ∧ jsWs c = false)) →
        ∀ c ∈ t, c = 32 ∨ (c ∈ a :: r ∧ jsWs c = false) := by
      intro t ht c hc
      rcases ht c hc with h32 | ⟨hm, hws⟩
      · exact Or.inl h32
      · exact Or.inr ⟨List.mem_cons_of_mem a hm, hws⟩
    constructor
    · intro c hc
      rw [collapseWs] at hc
      by_cases hw : jsWs a
      · rw [if_pos hw] at hc
        rcases List.mem_cons.mp hc with h32 | hrest
        · exact Or.inl h32
        · exact step _ ihR c hrest
      · rw [if_neg hw] at hc
        rcases List.mem_cons.mp hc with hca | hrest
        · rw [hca]
          exact Or.inr ⟨List.mem_cons_self a r, Bool.eq_false_iff.mpr hw⟩
        · exact step _ ihW c hrest
    · intro c hc
      rw [collapseRun] at hc
      by_cases hw : jsWs a
      · rw [if_pos hw] at hc
        exact step _ ihR c hc
      · rw [if_neg hw] at hc
        rcases List.mem_cons.mp hc with hca | hrest
        · rw [hca]
          exact Or.inr ⟨List.mem_cons_self a r, Bool.eq_false_iff.mpr hw⟩
        · exact step _ ihW c hrest

/-- The collapsed string has no two adjacent white-space characters, and the
in-run continuation starts with a non-white-space character. -/
theorem collapse_chain (s : Bytes) :
    List.Chain' (fun a b => ¬(jsWs a = true ∧ jsWs b = true)) (collapseWs s) ∧
    List.Chain' (fun a b => ¬(jsWs a = true ∧ jsWs b = true)) (collapseRun s) ∧
    (∀ c ∈ (collapseRun s).head?.toList, jsWs c = false) := by
  induction s with
  | nil =>
    refine ⟨?_, ?_, ?_⟩ <;> simp [collapseWs, collapseRun]
  | cons a r ih =>
    obtain ⟨ihW, ihR, ihH⟩ := ih
    refine ⟨?_, ?_, ?_⟩
    · rw [collapseWs]
      by_cases hw : jsWs a
      · rw [if_pos hw]
        refine List.chain'_cons'.mpr ⟨fun y hy => ?_, ihR⟩
        intro hcon
        have hyy : jsWs y = false := by
          apply ihH
          simp [hy]
        rw [hyy] at hcon
        exact absurd hcon.2 (by simp)
      · rw [if_neg hw]
        refine List.chain'_cons'.mpr ⟨fun y hy => ?_, ihW⟩
        intro hcon
        exact hw hcon.1
    · rw [collapseRun]
      by_cases hw : jsWs a
      · rw [if_pos hw]
        exact ihR
      · rw [if_neg hw]
        refine List.chain'_cons'.mpr ⟨fun y hy => ?_, ihW⟩
        intro hcon
        exact hw hcon.1
    · rw [collapseRun]
      by_cases hw : jsWs a
      · rw [if_pos hw]
        exact ihH
      · rw [if_neg hw]
        intro c hc
        simp only [List.head?_cons, Option.toList_some, List.mem_singleton] at hc
        subst hc
        exact Bool.eq_false_iff.mpr hw

/-- The head of a `dropWhile` result does not satisfy the predicate. -/
theorem head_dropWhile_not (p : Nat → Bool) (l : Bytes) :
    ∀ c ∈ (l.dropWhile p).head?.toList, p c = false := by
  induction l with
  | nil =>
    simp [List.dropWhile]
  | cons a r ih =>
    by_cases hp : p a
    · rw [List.dropWhile_cons, if_pos hp]
      exact ih
    · rw [List.dropWhile_cons, if_neg hp]
      intro c hc
      simp only [List.head?_cons, Option.toList_some, List.mem_singleton] at hc
      rw [hc]
      exact Bool.eq_false_iff.mpr hp

/-- `trimEnd` is a prefix of its input. -/
theorem trimEnd_isPrefix (l : Bytes) : trimEnd l <+: l := by
  have h : l.reverse.dropWhile jsWs <:+ l.reverse := List.dropWhile_suffix jsWs
  have h2 := List.reverse_prefix.mpr h
  rwa [List.reverse_reverse] at h2

/-- The last character of a `trimEnd` result is not white-space. -/
theorem trimEnd_getLast (l : Bytes) :
    ∀ c ∈ (trimEnd l).getLast?.toList, jsWs c = false := by
  rw [trimEnd]
  rw [List.getLast?_reverse]
  exact head_dropWhile_not jsWs l.reverse

/-- A nonempty prefix has the same optional head as the full list. -/
theorem IsPrefix_head? {p l : Bytes} (h : p <+: l) (hne : p ≠ []) : p.head? = l.head? := by
  obtain ⟨t, ht⟩ := h
  subst ht
  cases p with
  | nil => exact absurd rfl hne
  | cons a r => rfl

/-- Taking a positive count preserves the optional head. -/
theorem head?_take_succ (n : Nat) (l : Bytes) : (l.take (n + 1)).head? = l.head? := by
  cases l <;> rfl

/-- Everything `sanitizeSegment` emits is a single space or a
non-white-space survivor of NUL-stripping and bad-character replacement. -/
theorem mem_sanitizeSegment {c : Nat} {input : Bytes} (h : c ∈ sanitizeSegment input) :
    c = 32 ∨ (c ∈ replaceBad (stripNul input) ∧ jsWs c = false) := by
  rw [sanitizeSegment] at h
  have h1 : c ∈ jsTrim (collapseWs (replaceBad (stripNul input))) :=
    ((List.take_prefix 80 _).sublist).mem h
  rw [jsTrim] at h1
  have h2 : c ∈ trimStart (collapseWs (replaceBad (stripNul input))) :=
    ((trimEnd_isPrefix _).sublist).mem h1
  rw [trimStart] at h2
  have h3 : c ∈ collapseWs (replaceBad (stripNul input)) :=
    ((List.dropWhile_suffix jsWs).sublist).mem h2
  exact (collapse_mem _).1 c h3

/-- Claim C8 is refuted at `c8CexInput`: the control byte SOH survives
`sanitizeSegment` (only NUL is stripped), and the 80-character truncation
leaves a trailing space. -/
theorem c8_counterexample : ¬ claimC8Prop c8CexInput := by
  intro h
  have h1 := h.1 1 (by decide)
  simp [isCtrl] at h1

/-- Claim C8, corrected: `sanitizeSegment` output has no NUL (only NUL among
the control characters is stripped), none of the nine path-unsafe
characters, every white-space character is a single space with no two
adjacent, no leading white-space, trailing white-space only when the
80-character truncation cut an interior space to the edge, and length at
most 80. -/
theorem c8_amended (input : Bytes) :
    (∀ c ∈ sanitizeSegment input, c ≠ 0) ∧
    (∀ c ∈ sanitizeSegment input, isBad c = false) ∧
    (∀ c ∈ sanitizeSegment input, jsWs c = true → c = 32) ∧
    List.Chain' (fun a b => ¬(jsWs a = true ∧ jsWs b = true)) (sanitizeSegment input) ∧
    (∀ c ∈ (sanitizeSegment input).head?.toList, jsWs c = false) ∧
    (∀ c ∈ (sanitizeSegment input).getLast?.toList, jsWs c = true →
      (sanitizeSegment input).length = 80) ∧
    (sanitizeSegment input).length ≤ 80 := by
  refine ⟨?_, ?_, ?_, ?_, ?_, ?_, ?_⟩
  · intro c hc
    rcases mem_sanitizeSegment hc with h32 | ⟨hm, _⟩
    · omega
    · rcases mem_replaceBad hm with h95 | ⟨hs, _⟩
      · omega
      · exact (mem_stripNul hs).2
  · intro c hc
    rcases mem_sanitizeSegment hc with h32 | ⟨hm, _⟩
    · rw [h32]
      decide
    · rcases mem_replaceBad hm with h95 | ⟨_, hb⟩
      · rw [h95]
        decide
      · exact hb
  · intro c hc hws
    rcases mem_sanitizeSegment hc with h32 | ⟨_, hnw⟩
    · exact h32
    · rw [hws] at hnw
      cases hnw
  · have hchain := (collapse_chain (replaceBad (stripNul input))).1
    have hinfix : sanitizeSegment input <:+: collapseWs (replaceBad (stripNul input)) := by
      rw [sanitizeSegment, jsTrim, trimStart]
      have p1 : (trimEnd ((collapseWs (replaceBad (stripNul input))).dropWhile jsWs)).take 80 <+:
          trimEnd ((collapseWs (replaceBad (stripNul input))).dropWhile jsWs) :=
        List.take_prefix _ _
      have p2 := trimEnd_isPrefix ((collapseWs (replaceBad (stripNul input))).dropWhile jsWs)
      have p3 : (collapseWs (replaceBad (stripNul input))).dropWhile jsWs <:+
          collapseWs (replaceBad (stripNul input)) := List.dropWhile_suffix jsWs
      exact ((p1.trans p2).isInfix).trans p3.isInfix
    exact hchain.infix hinfix
  · intro c hc
    rw [sanitizeSegment] at hc
    rw [show (80 : Nat) = 79 + 1 from rfl, head?_take_succ] at hc
    rw [jsTrim] at hc
    by_cases hne : trimEnd (trimStart (collapseWs (replaceBad (stripNul input)))) = []
    · rw [hne] at hc
      simp at hc
    · rw [IsPrefix_head? (trimEnd_isPrefix _) hne, trimStart] at hc
      exact head_dropWhile_not jsWs _ c hc
  · intro c hc hws
    rw [sanitizeSegment] at hc ⊢
    by_cases hlen : (jsTrim (collapseWs (replaceBad (stripNul input)))).length ≤ 80
    · rw [List.take_of_length_le hlen] at hc
      rw [jsTrim] at hc
      have := trimEnd_getLast (trimStart (collapseWs (replaceBad (stripNul input)))) c hc
      rw [hws] at this
      cases this
    · rw [List.length_take]
      omega
  · rw [sanitizeSegment]
    exact List.length_take_le 80 _

/-- Witness for the corrected C8 at the concrete input `a:  b\tc`: the colon
becomes an underscore and the white-space collapses to single spaces. -/
theorem c8_amended_witness :
    sanitizeSegment (strBytes "a:  b\tc") = strBytes "a_ b c" ∧
    (∀ c ∈ sanitizeSegment (strBytes "a:  b\tc"), isBad c = false) ∧
    (∀ c ∈ sanitizeSegment (strBytes "a:  b\tc"), jsWs c = true → c = 32) ∧
    (sanitizeSegment (strBytes "a:  b\tc")).length ≤ 80 :=
  ⟨by decide, (c8_amended (strBytes "a:  b\tc")).2.1,
   (c8_amended (strBytes "a:  b\tc")).2.2.1,
   (c8_amended (strBytes "a:  b\tc")).2.2.2.2.2.2⟩

/-!
Claim C2 (`dedupePath` pairwise distinctness).
-/

/-- A candidate returned by the numeric-suffix scan is not yet registered. -/
theorem dedupeScan_fresh (base ext : Bytes) (used : SetFn) :
    ∀ fuel i c, dedupeScan base ext used fuel i = some c → used c = false := by
  intro fuel
  induction fuel with
  | zero =>
    intro i c h
    simp [dedupeScan] at h
  | succ f ih =>
    intro i c h
    rw [dedupeScan] at h
    by_cases hu : used (dedupeCand base ext i)
    · rw [if_pos hu] at h
      exact ih (i + 1) c h
    · rw [if_neg hu] at h
      cases h
      exact Bool.eq_false_iff.mpr hu

/-- Every `dedupePath` call registers exactly the path it returns. -/
theorem dedupePath_snd (p : Bytes) (used : SetFn) :
    (dedupePath p used).2 = setAdd used (dedupePath p used).1 := by
  rw [dedupePath]
  by_cases h : used p
  · rw [if_pos h]
    rcases hscan : dedupeScan (match lastIdxOf p 46 with | some i => p.take i | none => p)
        (match lastIdxOf p 46 with | some i => p.drop i | none => ([] : Bytes)) used 998 2 with
      _ | c
    · simp [hscan]
    · simp [hscan]
  · rw [if_neg h]

/-- When a call does not reach the hash fallback, the path it returns was
not yet registered. -/
theorem dedupePath_fresh (p : Bytes) (used : SetFn)
    (h : dedupeHitsFallback p used = false) : used (dedupePath p used).1 = false := by
  rw [dedupePath]
  by_cases hu : used p
  · rw [if_pos hu]
    rw [dedupeHitsFallback] at h
    rw [Bool.and_eq_false_iff] at h
    dsimp only at h ⊢
    rcases h with h | h
    · rw [hu] at h
      cases h
    · rcases hscan : dedupeScan (match lastIdxOf p 46 with | some i => p.take i | none => p)
          (match lastIdxOf p 46 with | some i => p.drop i | none => ([] : Bytes)) used 998 2 with
        _ | c
      · rw [hscan] at h
        simp at h
      · simp only [hscan]
        exact dedupeScan_fresh _ _ used 998 2 c hscan
  · rw [if_neg hu]
    exact Bool.eq_false_iff.mpr hu

/-- Registration only grows the registry. -/
theorem setAdd_mono {used : SetFn} {q : Bytes} (p : Bytes) (h : used q = true) :
    setAdd used p q = true := by
  rw [setAdd]
  by_cases hq : q = p
  · rw [if_pos hq]
  · rw [if_neg hq]
    exact h

/-- The registered path is in the registry. -/
theorem setAdd_self (used : SetFn) (p : Bytes) : setAdd used p p = true := by
  simp [setAdd]

/-- Invariant of a fallback-free `dedupeRun`: the returned paths are pairwise
distinct and every one of them was fresh relative to the initial registry. -/
theorem dedupeRun_fresh (ps : List Bytes) :
    ∀ used : SetFn, noFallbackRun used ps = true →
      (dedupeRun used ps).1.Pairwise (· ≠ ·) ∧
      (∀ y ∈ (dedupeRun used ps).1, used y = false) := by
  induction ps with
  | nil =>
    intro used _
    constructor
    · exact List.Pairwise.nil
    · intro y hy
      simp [dedupeRun] at hy
  | cons p ps ih =>
    intro used h
    rw [noFallbackRun, Bool.and_eq_true] at h
    obtain ⟨hnf, hrest⟩ := h
    rw [Bool.not_eq_true'] at hnf
    have hfresh := dedupePath_fresh p used hnf
    obtain ⟨ihPw, ihFresh⟩ := ih (dedupePath p used).2 hrest
    have hRestFreshUsed : ∀ y ∈ (dedupeRun (dedupePath p used).2 ps).1, used y = false := by
      intro y hy
      by_cases hu : used y
      · have := setAdd_mono (dedupePath p used).1 hu
        rw [← dedupePath_snd] at this
        rw [ihFresh y hy] at this
        cases this
      · exact Bool.eq_false_iff.mpr hu
    have hNe : ∀ y ∈ (dedupeRun (dedupePath p used).2 ps).1, (dedupePath p used).1 ≠ y := by
      intro y hy hEq
      have h1 := ihFresh y hy
      rw [← hEq, dedupePath_snd, setAdd_self] at h1
      cases h1
    constructor
    · rw [dedupeRun]
      exact List.Pairwise.cons hNe ihPw
    · intro y hy
      rw [dedupeRun] at hy
      rcases List.mem_cons.mp hy with h1 | h2
      · rw [h1]
        exact hfresh
      · exact hRestFreshUsed y h2

/-- Claim C2 is refuted: with registry `c2CexUsed` (the state after `a` and
all of `a_2` … `a_999` have been handed out), two further calls on `a` both
return the same hash-fallback path `a_ca978112ca`, because the fallback is
registered and returned without a membership check. -/
theorem c2_counterexample : ¬ claimC2Prop c2CexUsed [strBytes "a", strBytes "a"] := by
  decide

/-- Claim C2, corrected: as long as no call of the sequence exhausts all 998
numeric suffixes and falls through to the hash fallback, the returned paths
are pairwise distinct. -/
theorem c2_amended (used : SetFn) (ps : List Bytes) (h : noFallbackRun used ps = true) :
    (dedupeRun used ps).1.Pairwise (· ≠ ·) :=
  (dedupeRun_fresh ps used h).1

/-- Witness for the corrected C2: a fallback-free sequence (`a`, `a`, `b.txt`,
`b.txt` against an empty registry) yields pairwise distinct paths. -/
theorem c2_amended_witness :
    noFallbackRun setEmpty
      [strBytes "a", strBytes "a", strBytes "b.txt", strBytes "b.txt"] = true ∧
    (dedupeRun setEmpty
      [strBytes "a", strBytes "a", strBytes "b.txt", strBytes "b.txt"]).1.Pairwise (· ≠ ·) :=
  ⟨by decide, c2_amended setEmpty _ (by decide)⟩

/-!
Claim C10 (permissive option defaults).
-/

/-- Claim C10: the handler's `downloadImages`/`downloadFiles` options (built
by `optionsOf`, which `handlerRun` applies to the body) are disabled exactly
when the body field is strictly the boolean `false`; an absent field,
`null`, `0` or the string `"false"` leaves the kind enabled. -/
theorem c10_options :
    (∀ body : BodyM, (optionsOf body).downloadImages = false ↔
      body.downloadImages = JSVal.bool false) ∧
    (∀ body : BodyM, (optionsOf body).downloadFiles = false ↔
      body.downloadFiles = JSVal.bool false) ∧
    (∀ body : BodyM,
      body.downloadImages = JSVal.undef ∨ body.downloadImages = JSVal.null ∨
        body.downloadImages = JSVal.num 0 ∨ body.downloadImages = JSVal.str (strBytes "false") →
      (optionsOf body).downloadImages = true) ∧
    (∀ body : BodyM,
      body.downloadFiles = JSVal.undef ∨ body.downloadFiles = JSVal.null ∨
        body.downloadFiles = JSVal.num 0 ∨ body.downloadFiles = JSVal.str (strBytes "false") →
      (optionsOf body).downloadFiles = true) := by
  refine ⟨?_, ?_, ?_, ?_⟩
  · intro body
    simp [optionsOf]
  · intro body
    simp [optionsOf]
  · intro body h
    rcases h with h | h | h | h <;> simp [optionsOf, h]
  · intro body h
    rcases h with h | h | h | h <;> simp [optionsOf, h]

/-- Witness for C10 at a concrete body: `downloadImages` set to the string
`"false"` and `downloadFiles` set to `0` both stay enabled, while a strict
boolean `false` disables. -/
theorem c10_options_witness :
    (optionsOf ⟨none, JSVal.undef, JSVal.str (strBytes "false"), JSVal.num 0⟩).downloadImages
        = true ∧
    (optionsOf ⟨none, JSVal.undef, JSVal.str (strBytes "false"), JSVal.num 0⟩).downloadFiles
        = true ∧
    (optionsOf ⟨none, JSVal.undef, JSVal.bool false, JSVal.bool false⟩).downloadFiles = false :=
  ⟨c10_options.2.2.1 ⟨none, JSVal.undef, JSVal.str (strBytes "false"), JSVal.num 0⟩
      (Or.inr (Or.inr (Or.inr rfl))),
   c10_options.2.2.2 ⟨none, JSVal.undef, JSVal.str (strBytes "false"), JSVal.num 0⟩
      (Or.inr (Or.inr (Or.inl rfl))),
   (c10_options.2.1 ⟨none, JSVal.undef, JSVal.bool false, JSVal.bool false⟩).mpr rfl⟩

/-!
Claim C9 (request validation).
-/

/-- Claim C9: when the derived URL list is empty, longer than 20, or contains
an entry that fails to parse or has a non-http(s) protocol, the handler
answers with a 400 rejection; the answer is computed before any extraction
or asset work (it does not depend on the network, extractor, hostname or
serializer oracles), and the rejection carries no manifest and no archive
entries. -/
theorem c9_validation (parse : Bytes → Option (Bytes × UrlParts))
    (net₁ net₂ : Bytes → Option NetResp) (host₁ host₂ : Bytes → Bytes)
    (extract₁ extract₂ : Bytes → Outcome) (js₁ js₂ : ManifestM → Bytes) (body : BodyM)
    (h : bodyUrls body = [] ∨ MAX_URLS < (bodyUrls body).length ∨
      ∃ u ∈ bodyUrls body, validUrl parse u = false) :
    (∃ msg, handlerRun parse net₁ host₁ extract₁ js₁ body = HandlerOut.invalid msg) ∧
    handlerRun parse net₁ host₁ extract₁ js₁ body =
      handlerRun parse net₂ host₂ extract₂ js₂ body := by
  simp only [handlerRun]
  by_cases h0 : (bodyUrls body).length = 0
  · rw [if_pos h0, if_pos h0]
    exact ⟨⟨_, rfl⟩, rfl⟩
  · rw [if_neg h0, if_neg h0]
    by_cases h1 : MAX_URLS < (bodyUrls body).length
    · rw [if_pos h1, if_pos h1]
      exact ⟨⟨_, rfl⟩, rfl⟩
    · rw [if_neg h1, if_neg h1]
      have hex : ∃ u, u ∈ bodyUrls body ∧ (fun u => !validUrl parse u) u = true := by
        rcases h with he | hl | ⟨u, hu, hv⟩
        · exact absurd (by rw [he]; rfl) h0
        · exact absurd hl h1
        · exact ⟨u, hu, by simp [hv]⟩
      have hsome : ((bodyUrls body).find? (fun u => !validUrl parse u)).isSome :=
        List.find?_isSome.mpr hex
      obtain ⟨v, hv⟩ := Option.isSome_iff_exists.mp hsome
      rw [hv]
      exact ⟨⟨_, rfl⟩, rfl⟩

/-- Witness for C9: a one-element list whose entry does not parse as a URL is
rejected independently of the downstream oracles. -/
theorem c9_validation_witness :
    (∃ msg, handlerRun (fun _ => none) (fun _ => none) (fun _ => []) (fun u => Outcome.err u)
      (fun _ => []) ⟨some [strBytes "notaurl"], JSVal.undef, JSVal.undef, JSVal.undef⟩ =
        HandlerOut.invalid msg) :=
  (c9_validation (fun _ => none) (fun _ => none) (fun _ => none) (fun _ => []) (fun _ => [])
    (fun u => Outcome.err u) (fun u => Outcome.err u) (fun _ => []) (fun _ => [])
    ⟨some [strBytes "notaurl"], JSVal.undef, JSVal.undef, JSVal.undef⟩
    (Or.inr (Or.inr ⟨strBytes "notaurl", by decide, by decide⟩))).1

/-!
Claim C4 (the 150 MB cumulative byte budget).
-/

/-- One `downloadAsset` step either rejects the asset and leaves the counter
untouched, or accepts it, adding exactly its body length while landing at or
under the global ceiling (and within the per-asset bounds). -/
theorem downloadAsset_step (net : Bytes → Option NetResp) (u : Bytes) (k : AssetKind)
    (used : SetFn) (total : Nat) :
    ((downloadAsset net u k used total).1 = none ∧
      (downloadAsset net u k used total).2.2 = total) ∨
    (∃ a, (downloadAsset net u k used total).1 = some a ∧
      (downloadAsset net u k used total).2.2 = total + a.content.length ∧
      total + a.content.length ≤ MAX_TOTAL_ASSET_BYTES ∧
      0 < a.content.length ∧ a.content.length ≤ MAX_ASSET_BYTES) := by
  rw [downloadAsset]
  cases hnet : net u with
  | none =>
    exact Or.inl ⟨rfl, rfl⟩
  | some r =>
    dsimp only
    by_cases c1 : k = AssetKind.files ∧ (strBytes "text/html").isPrefixOf (asciiLower r.contentType)
    · rw [if_pos c1]
      exact Or.inl ⟨rfl, rfl⟩
    · rw [if_neg c1]
      by_cases c2 : r.body.length = 0
      · rw [if_pos c2]
        exact Or.inl ⟨rfl, rfl⟩
      · rw [if_neg c2]
        by_cases c3 : MAX_ASSET_BYTES < r.body.length
        · rw [if_pos c3]
          exact Or.inl ⟨rfl, rfl⟩
        · rw [if_neg c3]
          by_cases c4 : MAX_TOTAL_ASSET_BYTES < total + r.body.length
          · rw [if_pos c4]
            exact Or.inl ⟨rfl, rfl⟩
          · rw [if_neg c4]
            dsimp only
            refine Or.inr ⟨⟨u, _, r.body⟩, rfl, rfl, ?_, ?_, ?_⟩ <;> dsimp only <;> omega

/-- When accepting the body would exceed the global ceiling, `downloadAsset`
returns `null` and leaves registry and counter untouched (whatever earlier
gate fires first). -/
theorem downloadAsset_over_budget (net : Bytes → Option NetResp) (u : Bytes) (k : AssetKind)
    (used : SetFn) (total : Nat) (r : NetResp) (hnet : net u = some r)
    (hover : MAX_TOTAL_ASSET_BYTES < total + r.body.length) :
    downloadAsset net u k used total = (none, used, total) := by
  rw [downloadAsset, hnet]
  dsimp only
  by_cases c1 : k = AssetKind.files ∧ (strBytes "text/html").isPrefixOf (asciiLower r.contentType)
  · rw [if_pos c1]
  · rw [if_neg c1]
    by_cases c2 : r.body.length = 0
    · rw [if_pos c2]
    · rw [if_neg c2]
      by_cases c3 : MAX_ASSET_BYTES < r.body.length
      · rw [if_pos c3]
      · rw [if_neg c3]
        rw [if_pos hover]

/-- Accounting of an asset loop: from any counter at or under the ceiling,
the final counter is the start plus exactly the accepted body lengths, and
it never exceeds the ceiling. -/
theorem runDownloads_total (net : Bytes → Option NetResp) (items : List (AssetKind × Bytes)) :
    ∀ (used : SetFn) (t0 : Nat),
      (runDownloads net items used t0).2.2 =
        t0 + ((acceptedAssets (runDownloads net items used t0).1).map
          (fun a => a.content.length)).sum ∧
      (t0 ≤ MAX_TOTAL_ASSET_BYTES →
        (runDownloads net items used t0).2.2 ≤ MAX_TOTAL_ASSET_BYTES) := by
  induction items with
  | nil =>
    intro used t0
    constructor
    · simp [runDownloads, acceptedAssets]
    · intro h
      exact h
  | cons item rest ih =>
    intro used t0
    obtain ⟨k, u⟩ := item
    rcases downloadAsset_step net u k used t0 with ⟨hnone, htot⟩ | ⟨a, hsome, htot, hle, _, _⟩
    · have ihh := ih (downloadAsset net u k used t0).2.1 (downloadAsset net u k used t0).2.2
      rw [runDownloads]
      constructor
      · dsimp only
        rw [hnone]
        have : acceptedAssets
            (none :: (runDownloads net rest (downloadAsset net u k used t0).2.1
              (downloadAsset net u k used t0).2.2).1) =
            acceptedAssets (runDownloads net rest (downloadAsset net u k used t0).2.1
              (downloadAsset net u k used t0).2.2).1 := by
          simp [acceptedAssets]
        rw [this, ihh.1, htot]
      · intro hb
        dsimp only
        rw [htot]
        exact (ih (downloadAsset net u k used t0).2.1 t0).2 hb
    · have ihh := ih (downloadAsset net u k used t0).2.1 (downloadAsset net u k used t0).2.2
      rw [runDownloads]
      constructor
      · dsimp only
        rw [hsome]
        have : acceptedAssets
            (some a :: (runDownloads net rest (downloadAsset net u k used t0).2.1
              (downloadAsset net u k used t0).2.2).1) =
            a :: acceptedAssets (runDownloads net rest (downloadAsset net u k used t0).2.1
              (downloadAsset net u k used t0).2.2).1 := by
          simp [acceptedAssets]
        rw [this, ihh.1, htot]
        simp [List.map_cons, List.sum_cons]
        omega
      · intro _
        dsimp only
        rw [htot]
        exact (ih (downloadAsset net u k used t0).2.1 (t0 + a.content.length)).2 hle

/-- The shared counter stays at or under the ceiling across the whole job
loop of a run. -/
theorem runJobs_budget (net : Bytes → Option NetResp) (host : Bytes → Bytes)
    (options : PackageOptions) (jobs : List (Nat × Bytes × Outcome)) :
    ∀ t0, t0 ≤ MAX_TOTAL_ASSET_BYTES →
      (runJobs net host options jobs t0).2 ≤ MAX_TOTAL_ASSET_BYTES := by
  induction jobs with
  | nil =>
    intro t0 h
    exact h
  | cons job rest ih =>
    intro t0 h
    obtain ⟨i, u, oc⟩ := job
    rw [runJobs]
    dsimp only
    apply ih
    cases oc with
    | err e =>
      exact h
    | ok r assets =>
      exact (runDownloads_total net (scheduledAssets assets options) setEmpty t0).2 h

/-- Claim C4: `downloadAsset` accepts a body only when the counter plus its
length is at or under the 150 MB ceiling and returns `null` otherwise (the
check and increment form one suspension-free step, modelled as one atomic
transition); from a zero counter, after any prefix of any asset list the
counter equals the sum of the accepted body lengths and never exceeds the
ceiling, and the counter threaded across a whole job loop stays at or under
the ceiling. -/
theorem c4_budget :
    (∀ (net : Bytes → Option NetResp) (u : Bytes) (k : AssetKind) (used : SetFn)
      (total : Nat) (r : NetResp), net u = some r →
      MAX_TOTAL_ASSET_BYTES < total + r.body.length →
      downloadAsset net u k used total = (none, used, total)) ∧
    (∀ (net : Bytes → Option NetResp) (items : List (AssetKind × Bytes)) (used : SetFn)
      (n : Nat),
      (runDownloads net (items.take n) used 0).2.2 =
        ((acceptedAssets (runDownloads net (items.take n) used 0).1).map
          (fun a => a.content.length)).sum ∧
      (runDownloads net (items.take n) used 0).2.2 ≤ MAX_TOTAL_ASSET_BYTES) ∧
    (∀ (net : Bytes → Option NetResp) (host : Bytes → Bytes) (options : PackageOptions)
      (jobs : List (Nat × Bytes × Outcome)),
      (runJobs net host options jobs 0).2 ≤ MAX_TOTAL_ASSET_BYTES) := by
  refine ⟨?_, ?_, ?_⟩
  · intro net u k used total r hnet hover
    exact downloadAsset_over_budget net u k used total r hnet hover
  · intro net items used n
    have h := runDownloads_total net (items.take n) used 0
    exact ⟨by rw [(h.1 : _)]; omega, h.2 (by decide)⟩
  · intro net host options jobs
    exact runJobs_budget net host options jobs 0 (by decide)

/-- Witness for C4 at concrete data: with the counter already at the
ceiling, even a one-byte body is rejected, leaving counter and registry
unchanged. -/
theorem c4_budget_witness :
    downloadAsset
      (fun _ => some ⟨⟨strBytes "x", strBytes "/f.bin"⟩, strBytes "application/pdf", none, [7]⟩)
      (strBytes "u") AssetKind.files setEmpty MAX_TOTAL_ASSET_BYTES =
      (none, setEmpty, MAX_TOTAL_ASSET_BYTES) :=
  c4_budget.1
    (fun _ => some ⟨⟨strBytes "x", strBytes "/f.bin"⟩, strBytes "application/pdf", none, [7]⟩)
    (strBytes "u") AssetKind.files setEmpty MAX_TOTAL_ASSET_BYTES
    ⟨⟨strBytes "x", strBytes "/f.bin"⟩, strBytes "application/pdf", none, [7]⟩ rfl
    (by simp)

/-!
Claim C5 (text rewriting).
-/

/-- A byte string is an infix exactly when it is a prefix of some suffix
(`drop`). -/
theorem infix_iff_drop {sep t : Bytes} : sep <:+: t ↔ ∃ m, sep <+: t.drop m := by
  constructor
  · intro h
    obtain ⟨u, v, huv⟩ := h
    refine ⟨u.length, ?_⟩
    rw [← huv, List.append_assoc, List.drop_left]
    exact List.prefix_append sep v
  · intro ⟨m, hm⟩
    exact (hm.isInfix).trans (List.drop_suffix m t).isInfix

/-- Specification of the leftmost-occurrence scan: a hit is a prefix of the
corresponding suffix and every earlier position misses; a miss means there
is no occurrence at all. -/
theorem findOccGo_spec (sep : Bytes) :
    ∀ (s : Bytes) (i : Nat),
      (∀ j, findOccGo sep s i = some j → i ≤ j ∧ sep <+: s.drop (j - i) ∧
        ∀ m < j - i, ¬ sep <+: s.drop m) ∧
      (findOccGo sep s i = none → ∀ m, ¬ sep <+: s.drop m) := by
  intro s
  induction s with
  | nil =>
    intro i
    constructor
    · intro j h
      rw [findOccGo] at h
      by_cases hp : sep.isPrefixOf ([] : Bytes)
      · rw [if_pos hp] at h
        cases h
        refine ⟨Nat.le_refl _, ?_, ?_⟩
        · rw [Nat.sub_self]
          exact List.isPrefixOf_iff_prefix.mp hp
        · intro m hm
          omega
      · rw [if_neg hp] at h
        cases h
    · intro h m
      rw [findOccGo] at h
      by_cases hp : sep.isPrefixOf ([] : Bytes)
      · rw [if_pos hp] at h
        cases h
      · rw [if_neg hp] at h
        rw [List.drop_nil]
        intro hc
        exact hp (List.isPrefixOf_iff_prefix.mpr hc)
  | cons a r ih =>
    intro i
    constructor
    · intro j h
      rw [findOccGo] at h
      by_cases hp : sep.isPrefixOf (a :: r)
      · rw [if_pos hp] at h
        cases h
        refine ⟨Nat.le_refl _, ?_, ?_⟩
        · rw [Nat.sub_self]
          exact List.isPrefixOf_iff_prefix.mp hp
        · intro m hm
          omega
      · rw [if_neg hp] at h
        obtain ⟨hij, hpre, hmin⟩ := (ih (i + 1)).1 j h
        refine ⟨by omega, ?_, ?_⟩
        · have : (a :: r).drop (j - i) = r.drop (j - i - 1) := by
            have hji : j - i = (j - i - 1) + 1 := by omega
            rw [hji]
            rfl
          rw [this]
          have : j - i - 1 = j - (i + 1) := by omega
          rw [this]
          exact hpre
        · intro m hm
          cases m with
          | zero =>
            rw [List.drop_zero]
            intro hc
            exact hp (List.isPrefixOf_iff_prefix.mpr hc)
          | succ m' =>
            have : (a :: r).drop (m' + 1) = r.drop m' := rfl
            rw [this]
            exact hmin m' (by omega)
    · intro h m
      rw [findOccGo] at h
      by_cases hp : sep.isPrefixOf (a :: r)
      · rw [if_pos hp] at h
        cases h
      · rw [if_neg hp] at h
        cases m with
        | zero =>
          rw [List.drop_zero]
          intro hc
          exact hp (List.isPrefixOf_iff_prefix.mpr hc)
        | succ m' =>
          have heq : (a :: r).drop (m' + 1) = r.drop m' := rfl
          rw [heq]
          exact (ih (i + 1)).2 h m'

/-- A `findOcc` hit is the leftmost occurrence. -/
theorem findOcc_some {t sep : Bytes} {i : Nat} (h : findOcc t sep = some i) :
    sep <+: t.drop i ∧ ∀ m < i, ¬ sep <+: t.drop m := by
  obtain ⟨_, hpre, hmin⟩ := (findOccGo_spec sep t 0).1 i h
  rw [Nat.sub_zero] at hpre hmin
  exact ⟨hpre, hmin⟩

/-- A `findOcc` miss means the separator does not occur. -/
theorem findOcc_none {t sep : Bytes} (h : findOcc t sep = none) : ¬ sep <:+: t := by
  intro hc
  obtain ⟨m, hm⟩ := infix_iff_drop.mp hc
  exact (findOccGo_spec sep t 0).2 h m hm

/-- An occurrence of a nonempty separator fits inside the text. -/
theorem occ_fits {t sep : Bytes} {i : Nat} (hsep : sep ≠ []) (h : sep <+: t.drop i) :
    i + sep.length ≤ t.length := by
  have h1 : sep.length ≤ (t.drop i).length := h.length_le
  rw [List.length_drop] at h1
  by_cases hi : i ≤ t.length
  · omega
  · rw [List.drop_eq_nil_of_le (by omega)] at h
    have := List.prefix_nil.mp h
    exact absurd this hsep

/-- Correctness of the bounded split: rejoining the parts with the separator
restores the text, no part contains an occurrence, and the part list is
nonempty. -/
theorem splitGo_spec (sep : Bytes) (hsep : sep ≠ []) :
    ∀ (fuel : Nat) (t : Bytes), t.length < fuel →
      List.intercalate sep (splitGo sep fuel t) = t ∧
      (∀ p ∈ splitGo sep fuel t, ¬ sep <:+: p) ∧
      splitGo sep fuel t ≠ [] := by
  intro fuel
  induction fuel with
  | zero =>
    intro t ht
    omega
  | succ f ih =>
    intro t ht
    rw [splitGo]
    cases hocc : findOcc t sep with
    | none =>
      refine ⟨by simp [List.intercalate], ?_, by simp⟩
      intro p hp
      rw [List.mem_singleton] at hp
      rw [hp]
      exact findOcc_none hocc
    | some i =>
      obtain ⟨hpre, hmin⟩ := findOcc_some hocc
      have hfit := occ_fits hsep hpre
      have hlen : (t.drop (i + sep.length)).length < f := by
        rw [List.length_drop]
        have hslen : 1 ≤ sep.length := by
          cases sep with
          | nil => exact absurd rfl hsep
          | cons x xs => simp
        omega
      obtain ⟨ihJoin, ihParts, ihNe⟩ := ih (t.drop (i + sep.length)) hlen
      have hdecomp : t.take i ++ sep ++ t.drop (i + sep.length) = t := by
        obtain ⟨u, hu⟩ := hpre
        have hu2 : t.drop (i + sep.length) = u := by
          have : (t.drop i).drop sep.length = u := by
            rw [← hu, List.drop_left]
          rw [List.drop_drop] at this
          exact this
        rw [hu2, List.append_assoc, hu]
        exact List.take_append_drop i t
      have hinter : List.intercalate sep (t.take i :: splitGo sep f (t.drop (i + sep.length))) =
          t.take i ++ sep ++ List.intercalate sep (splitGo sep f (t.drop (i + sep.length))) := by
        cases hgo : splitGo sep f (t.drop (i + sep.length)) with
        | nil => exact absurd hgo ihNe
        | cons b m => simp [List.intercalate, List.intersperse]
      refine ⟨?_, ?_, by simp⟩
      · rw [hinter, ihJoin, hdecomp]
      · intro p hp
        rcases List.mem_cons.mp hp with hhead | hrest
        · rw [hhead]
          intro hc
          obtain ⟨m, hm⟩ := infix_iff_drop.mp hc
          have hfit2 : m + sep.length ≤ (t.take i).length := occ_fits hsep hm
          rw [List.length_take] at hfit2
          have hslen : 1 ≤ sep.length := by
            cases sep with
            | nil => exact absurd rfl hsep
            | cons x xs => simp
          have hmi : m < i := by omega
          apply hmin m hmi
          rw [List.drop_take] at hm
          exact hm.trans (List.take_prefix _ _)
        · exact ihParts p hrest

/-- Claim C5, first half: one `replaceAll` step decomposes its input into the
occurrence-free parts around the non-overlapping left-to-right occurrences
of the (nonempty) search string and rejoins them with the replacement. -/
theorem replaceAll_spec (t s r : Bytes) (hs : s ≠ []) :
    ∃ parts : List Bytes, parts ≠ [] ∧ t = List.intercalate s parts ∧
      (∀ p ∈ parts, ¬ s <:+: p) ∧ replaceAll t s r = List.intercalate r parts := by
  obtain ⟨hJoin, hParts, hNe⟩ := splitGo_spec s hs (t.length + 1) t (by omega)
  refine ⟨splitOnSub t s, hNe, ?_, hParts, ?_⟩
  · rw [splitOnSub]
    rw [hJoin]
  · rw [replaceAll, if_neg hs]

/-- A `replaceAll` step whose search string does not occur leaves the text
unchanged. -/
theorem replaceAll_of_not_occurs (t s r : Bytes) (h : ¬ s <:+: t) : replaceAll t s r = t := by
  by_cases hs : s = []
  · rw [replaceAll, if_pos hs]
  · rw [replaceAll, if_neg hs, splitOnSub]
    cases hocc : findOcc t s with
    | none =>
      rw [splitGo, hocc]
      simp [List.intercalate]
    | some i =>
      obtain ⟨hpre, _⟩ := findOcc_some hocc
      exact absurd (infix_iff_drop.mpr ⟨i, hpre⟩) h

/-- A rewriting loop none of whose search strings occur is the identity. -/
theorem rewriteMarkdown_of_not_occurs (md : Bytes) (ok : List (Bytes × Bytes))
    (h : ∀ a ∈ ok, ¬ a.1 <:+: md) : rewriteMarkdown md ok = md := by
  induction ok with
  | nil => rfl
  | cons a rest ih =>
    rw [rewriteMarkdown, List.foldl_cons,
      replaceAll_of_not_occurs md a.1 a.2 (h a (List.mem_cons_self a rest))]
    exact ih (fun b hb => h b (List.mem_cons_of_mem a hb))

/-- Claim C5 is refuted: in `see http://x/ab now`, rewriting the downloaded
asset `http://x/a` to its relative path destroys the occurrence of the
failed asset's URL `http://x/ab`, so the failed asset's URL does not survive
unchanged. -/
theorem c5_counterexample : ¬ claimC5Prop c5CexMd c5CexOk c5CexFailed := by
  intro h
  have h2 := h.2 (strBytes "http://x/ab") (by decide) (by decide)
  exact absurd h2 (by decide)

/-- Claim C5, corrected: each successful asset's step is a verbatim
plain-substring replace-all of its URL in the text as it stands (the text
splits into occurrence-free parts rejoined by the relative path); failed
assets trigger no step, so their URLs survive whenever no successful
asset's URL occurs in the text — but an occurrence overlapping a replaced
occurrence (e.g. an ok URL that is a substring of a failed URL) can be
destroyed. -/
theorem c5_amended :
    (∀ t s r : Bytes, s ≠ [] → ∃ parts : List Bytes, parts ≠ [] ∧
      t = List.intercalate s parts ∧ (∀ p ∈ parts, ¬ s <:+: p) ∧
      replaceAll t s r = List.intercalate r parts) ∧
    (∀ (md : Bytes) (ok : List (Bytes × Bytes)),
      (∀ a ∈ ok, ¬ a.1 <:+: md) → rewriteMarkdown md ok = md) ∧
    (∀ (md : Bytes) (ok : List (Bytes × Bytes)) (u : Bytes),
      (∀ a ∈ ok, ¬ a.1 <:+: md) → u <:+: md → u <:+: rewriteMarkdown md ok) := by
  refine ⟨replaceAll_spec, rewriteMarkdown_of_not_occurs, ?_⟩
  intro md ok u h hu
  rw [rewriteMarkdown_of_not_occurs md ok h]
  exact hu

/-- Witness for the corrected C5: splitting `xaxa` at `a` and rejoining with
`bb`, and a failed URL surviving a rewrite whose search strings do not
occur. -/
theorem c5_amended_witness :
    (strBytes "a" ≠ [] ∧ ∃ parts : List Bytes, parts ≠ [] ∧
      strBytes "xaxa" = List.intercalate (strBytes "a") parts ∧
      (∀ p ∈ parts, ¬ strBytes "a" <:+: p) ∧
      replaceAll (strBytes "xaxa") (strBytes "a") (strBytes "bb") =
        List.intercalate (strBytes "bb") parts) ∧
    rewriteMarkdown (strBytes "hello") [(strBytes "zz", strBytes "w")] = strBytes "hello" :=
  ⟨⟨by decide, c5_amended.1 (strBytes "xaxa") (strBytes "a") (strBytes "bb") (by decide)⟩,
   c5_amended.2.1 (strBytes "hello") [(strBytes "zz", strBytes "w")] (by decide)⟩

/-!
Claim C3 (`splitTarPath` long-path handling).
-/

/-- A `lastIdxOf` hit is an in-range index holding the sought byte. -/
theorem lastIdxOf_some {l : Bytes} {c i : Nat} (h : lastIdxOf l c = some i) :
    i < l.length ∧ l.getD i 0 = c := by
  rw [lastIdxOf] at h
  cases hf : l.reverse.findIdx? (· == c) with
  | none =>
    rw [hf] at h
    cases h
  | some j =>
    rw [hf] at h
    cases h
    obtain ⟨hj, hp, _⟩ := List.findIdx?_eq_some_iff_getElem.mp hf
    rw [List.length_reverse] at hj
    have hjr : j < l.reverse.length := by rw [List.length_reverse]; exact hj
    have hget : l.reverse[j] = c := by
      have := hp
      simpa using this
    rw [List.getElem_reverse] at hget
    constructor
    · omega
    · have hb : l.length - 1 - j < l.length := by omega
      rw [List.getD_eq_getElem l 0 hb]
      exact hget

/-- Rebuild a list from the parts around an in-range position. -/
theorem take_cons_drop {l : Bytes} {i : Nat} (hi : i < l.length) :
    l.take i ++ l.getD i 0 :: l.drop (i + 1) = l := by
  rw [List.getD_eq_getElem _ _ hi]
  rw [List.getElem_cons_drop]
  exact List.take_append_drop i l

/-- Claim C3 is refuted at `c3CexPath`: the path admits a clean split (at
slash position 155), is 255 bytes long, yet `splitTarPath` only tries the
last slash (position 157, leading part 157 > 155 bytes) and falls back to
the synthetic hash name with an empty prefix field. -/
theorem c3_counterexample : ¬ claimC3Prop c3CexPath := by
  intro h
  obtain ⟨i, hi, heq⟩ := h.2 (by decide) (by decide) ⟨155, by decide⟩
  have hsnd : (splitTarPath c3CexPath).2 = (toPosixPath c3CexPath).take i :=
    congrArg Prod.snd heq
  have hval : (splitTarPath c3CexPath).2 = [] := by decide
  rw [hval] at hsnd
  rcases List.take_eq_nil_iff.mp hsnd.symm with h0 | hnil
  · omega
  · rw [hnil] at hi
    have := hi.2.1
    simp at this

/-- Claim C3, corrected: a path of at most 100 normalized bytes goes wholly
into `name` with an empty prefix field; a longer path whose split at its
last slash gives a trailing part of at most 100 bytes and a nonempty
leading part of at most 155 bytes is encoded by exactly that split (which
reassembles to the path), never by the synthetic fallback. -/
theorem c3_amended (p : Bytes) :
    ((toPosixPath p).length ≤ 100 → splitTarPath p = (toPosixPath p, [])) ∧
    (∀ idx : Nat, 100 < (toPosixPath p).length →
      lastIdxOf (toPosixPath p) 47 = some idx → 0 < idx →
      ((toPosixPath p).drop (idx + 1)).length ≤ 100 →
      ((toPosixPath p).take idx).length ≤ 155 →
      splitTarPath p = ((toPosixPath p).drop (idx + 1), (toPosixPath p).take idx) ∧
      (toPosixPath p).take idx ++ 47 :: (toPosixPath p).drop (idx + 1) = toPosixPath p) := by
  constructor
  · intro h
    rw [splitTarPath]
    rw [if_pos h]
  · intro idx hlong hlast hpos hname hpfx
    constructor
    · rw [splitTarPath]
      rw [if_neg (by omega), hlast]
      dsimp only
      rw [if_pos hpos, if_pos ⟨hname, hpfx⟩]
    · obtain ⟨hlt, hc⟩ := lastIdxOf_some hlast
      rw [← hc]
      exact take_cons_drop hlt

/-- Witness for the corrected C3 at a 161-byte path (150 `a`s, a slash, 10
`b`s): the last-slash split is clean and `splitTarPath` uses it. -/
theorem c3_amended_witness :
    (100 < (toPosixPath (List.replicate 150 97 ++ 47 :: List.replicate 10 98)).length) ∧
    splitTarPath (List.replicate 150 97 ++ 47 :: List.replicate 10 98) =
      ((toPosixPath (List.replicate 150 97 ++ 47 :: List.replicate 10 98)).drop 151,
       (toPosixPath (List.replicate 150 97 ++ 47 :: List.replicate 10 98)).take 150) :=
  ⟨by decide,
   ((c3_amended (List.replicate 150 97 ++ 47 :: List.replicate 10 98)).2 150
     (by decide) (by decide) (by decide) (by decide) (by decide)).1⟩

/-!
Claim C1 (header checksum).
-/

/-- Every cell of a written buffer stays below 256. -/
theorem bufWrite_lt {b : Buf} (off : Nat) (bs : Bytes) (h : ∀ i, b i < 256) :
    ∀ i, bufWrite b off bs i < 256 := by
  intro i
  rw [bufWrite]
  split
  · exact Nat.mod_lt _ (by omega)
  · exact h i

/-- Every cell of a filled buffer stays below 256. -/
theorem bufFill_lt {b : Buf} (s e v : Nat) (h : ∀ i, b i < 256) :
    ∀ i, bufFill b s e v i < 256 := by
  intro i
  rw [bufFill]
  split
  · exact Nat.mod_lt _ (by omega)
  · exact h i

/-- Every cell of an updated buffer stays below 256. -/
theorem bufSet_lt {b : Buf} (j v : Nat) (h : ∀ i, b i < 256) :
    ∀ i, bufSet b j v i < 256 := by
  intro i
  rw [bufSet]
  split
  · exact Nat.mod_lt _ (by omega)
  · exact h i

/-- Every cell of a string-field write stays below 256. -/
theorem writeStringB_lt {b : Buf} (off len : Nat) (v : Bytes) (h : ∀ i, b i < 256) :
    ∀ i, writeStringB b off len v i < 256 :=
  bufWrite_lt _ _ h

/-- Every cell of an octal-field write stays below 256. -/
theorem writeOctalB_lt {b : Buf} (off len n : Nat) (h : ∀ i, b i < 256) :
    ∀ i, writeOctalB b off len n i < 256 :=
  bufSet_lt _ _ (bufWrite_lt _ _ h)

/-- Every cell of the zero buffer is a byte. -/
theorem bufZero_lt : ∀ i, bufZero i < 256 := by
  intro i
  rw [bufZero]
  omega

/-- Every cell of the pre-checksum header is a byte. -/
theorem headerPre_lt (path : Bytes) (size mode mtime typeflag : Nat) :
    ∀ i, headerPre path size mode mtime typeflag i < 256 := by
  rw [headerPre]
  exact writeStringB_lt _ _ _ (writeOctalB_lt _ _ _ (writeOctalB_lt _ _ _ (writeStringB_lt _ _ _
    (writeStringB_lt _ _ _ (writeStringB_lt _ _ _ (bufSet_lt _ _ (writeStringB_lt _ _ _
    (bufSet_lt _ _ (bufFill_lt _ _ _ (writeOctalB_lt _ _ _ (writeOctalB_lt _ _ _
    (writeOctalB_lt _ _ _ (writeOctalB_lt _ _ _ (writeOctalB_lt _ _ _
    (writeStringB_lt _ _ _ bufZero_lt)))))))))))))))

/-- The 512-byte sum of a byte-valued buffer is at most `512 * 255`. -/
theorem headerSum_le {b : Buf} (h : ∀ i, b i < 256) : headerSum b ≤ 130560 := by
  rw [headerSum]
  have hb : ∀ x ∈ (List.range 512).map b, x ≤ 255 := by
    intro x hx
    obtain ⟨i, _, hi⟩ := List.mem_map.mp hx
    have := h i
    omega
  have := List.sum_le_card_nsmul ((List.range 512).map b) 255 hb
  rw [List.length_map, List.length_range] at this
  simpa using this

/-- The fueled digit function agrees with `Nat.digits` once the fuel covers
the number. -/
theorem digitsAux_eq {b : Nat} (hb : 2 ≤ b) :
    ∀ fuel n, n ≤ fuel → digitsAux b fuel n = Nat.digits b n := by
  intro fuel
  induction fuel with
  | zero =>
    intro n hn
    have : n = 0 := by omega
    rw [this, Nat.digits_zero]
    rfl
  | succ f ih =>
    intro n hn
    rw [digitsAux]
    by_cases h0 : n = 0
    · rw [if_pos h0, h0, Nat.digits_zero]
    · rw [if_neg h0]
      rw [Nat.digits_def' (by omega : 1 < b) (by omega : 0 < n)]
      rw [ih (n / b) (by
        have := Nat.div_lt_self (by omega : 0 < n) (by omega : 1 < b)
        omega)]

/-- The little-endian digit list equals `Nat.digits`. -/
theorem digitsLE_eq {b : Nat} (hb : 2 ≤ b) (n : Nat) : digitsLE b n = Nat.digits b n :=
  digitsAux_eq hb n n (Nat.le_refl n)

/-- A number below `8 ^ 6` has at most six octal ASCII digits. -/
theorem octBytes_len_le {n : Nat} (h : n < 8 ^ 6) : (octBytes n).length ≤ 6 := by
  rw [octBytes]
  by_cases h0 : n = 0
  · rw [if_pos h0]
    decide
  · rw [if_neg h0]
    rw [List.length_map, List.length_reverse, digitsLE_eq (by omega)]
    rw [Nat.digits_len 8 n (by omega) h0]
    have := Nat.log_lt_of_lt_pow h0 h
    omega

/-- Octal ASCII digits lie in `['0', '8')`. -/
theorem octBytes_bounds {n : Nat} : ∀ c ∈ octBytes n, 48 ≤ c ∧ c < 56 := by
  rw [octBytes]
  by_cases h0 : n = 0
  · rw [if_pos h0]
    intro c hc
    rw [List.mem_singleton] at hc
    omega
  · rw [if_neg h0]
    intro c hc
    obtain ⟨d, hd, hdc⟩ := List.mem_map.mp hc
    rw [List.mem_reverse] at hd
    rw [digitsLE_eq (by omega)] at hd
    have := Nat.digits_lt_base (by omega) hd
    omega

/-- Zero-padding to a covered length yields exactly that length. -/
theorem padZeros_len {len : Nat} {s : Bytes} (h : s.length ≤ len) :
    (padZeros len s).length = len := by
  rw [padZeros, List.length_append, List.length_replicate]
  omega

/-- A zero-padded octal rendering keeps its digits in `['0', '8')`. -/
theorem padZeros_octBytes_bounds {len n : Nat} :
    ∀ c ∈ padZeros len (octBytes n), 48 ≤ c ∧ c < 56 := by
  intro c hc
  rw [padZeros] at hc
  rcases List.mem_append.mp hc with hrep | hoct
  · have := List.eq_of_mem_replicate hrep
    omega
  · exact octBytes_bounds c hoct

/-- `ofDigits` of a zero block vanishes. -/
theorem ofDigits_replicate_zero (b : Nat) : ∀ k, Nat.ofDigits b (List.replicate k 0) = 0 := by
  intro k
  induction k with
  | zero => rfl
  | succ m ih =>
    rw [List.replicate_succ, Nat.ofDigits_cons, ih]
    simp

/-- Reading the zero-padded octal ASCII digits back as a base-8 numeral
recovers the number. -/
theorem octVal {n : Nat} (h : n < 8 ^ 6) :
    Nat.ofDigits 8 (((padZeros 6 (octBytes n)).map (fun c => c - 48)).reverse) = n := by
  rw [padZeros, List.map_append, List.reverse_append]
  have hrep : (List.replicate (6 - (octBytes n).length) 0 : List Nat).reverse =
      List.replicate (6 - (octBytes n).length) 0 := List.reverse_replicate _ _
  have hmaprep : (List.replicate (6 - (octBytes n).length) 48).map (fun c => c - 48) =
      List.replicate (6 - (octBytes n).length) 0 := by
    rw [List.map_replicate]
  rw [hmaprep, hrep]
  have hoct : ((octBytes n).map (fun c => c - 48)).reverse =
      if n = 0 then [0] else Nat.digits 8 n := by
    rw [octBytes]
    by_cases h0 : n = 0
    · rw [if_pos h0, if_pos h0]
      rfl
    · rw [if_neg h0, if_neg h0]
      have hid : ((fun c : Nat => c - 48) ∘ fun x : Nat => x + 48) = (id : Nat → Nat) := by
        funext d
        simp
      rw [List.map_map, List.map_reverse, List.reverse_reverse, digitsLE_eq (by omega), hid,
        List.map_id]
  rw [hoct]
  by_cases h0 : n = 0
  · rw [if_pos h0, Nat.ofDigits_append, ofDigits_replicate_zero, h0]
    simp
  · rw [if_neg h0, Nat.ofDigits_append, ofDigits_replicate_zero, Nat.ofDigits_digits]
    simp

/-- A write leaves cells outside its field unchanged. -/
theorem bufWrite_out (b : Buf) (off : Nat) (bs : Bytes) (i : Nat)
    (h : i < off ∨ off + bs.length ≤ i) : bufWrite b off bs i = b i := by
  rw [bufWrite, if_neg (by omega)]

/-- A fill leaves cells outside its range unchanged. -/
theorem bufFill_out (b : Buf) (s e v i : Nat) (h : i < s ∨ e ≤ i) :
    bufFill b s e v i = b i := by
  rw [bufFill, if_neg (by omega)]

/-- A single-byte update leaves other cells unchanged. -/
theorem bufSet_out (b : Buf) (j v i : Nat) (h : i ≠ j) : bufSet b j v i = b i := by
  rw [bufSet, if_neg h]

/-- A string-field write leaves cells outside its field unchanged. -/
theorem writeStringB_out (b : Buf) (off len : Nat) (v : Bytes) (i : Nat)
    (h : i < off ∨ off + len ≤ i) : writeStringB b off len v i = b i := by
  rw [writeStringB]
  apply bufWrite_out
  have := List.length_take_le len v
  omega

/-- An octal-field write leaves cells outside its field unchanged. -/
theorem writeOctalB_out (b : Buf) (off len n i : Nat) (hlen : 1 ≤ len)
    (h : i < off ∨ off + len ≤ i) : writeOctalB b off len n i = b i := by
  rw [writeOctalB]
  rw [bufSet_out _ _ _ _ (by omega)]
  exact writeStringB_out _ _ _ _ _ (by omega)

/-- A fill writes its value inside its range. -/
theorem bufFill_in (b : Buf) (s e v i : Nat) (h1 : s ≤ i) (h2 : i < e) :
    bufFill b s e v i = v % 256 := by
  rw [bufFill, if_pos ⟨h1, h2⟩]

/-- A write stores its bytes inside its field. -/
theorem bufWrite_in (b : Buf) (off : Nat) (bs : Bytes) (i : Nat) (h1 : off ≤ i)
    (h2 : i < off + bs.length) : bufWrite b off bs i = bs.getD (i - off) 0 % 256 := by
  rw [bufWrite, if_pos ⟨h1, h2⟩]

/-- The checksum field of the pre-checksum header holds eight ASCII
spaces. -/
theorem headerPre_chk (path : Bytes) (size mode mtime typeflag : Nat) (i : Nat)
    (h1 : 148 ≤ i) (h2 : i < 156) : headerPre path size mode mtime typeflag i = 32 := by
  rw [headerPre]
  rw [writeStringB_out _ 345 155 _ i (by omega)]
  rw [writeOctalB_out _ 337 8 _ i (by omega) (by omega)]
  rw [writeOctalB_out _ 329 8 _ i (by omega) (by omega)]
  rw [writeStringB_out _ 297 32 _ i (by omega)]
  rw [writeStringB_out _ 265 32 _ i (by omega)]
  rw [writeStringB_out _ 263 2 _ i (by omega)]
  rw [bufSet_out _ 262 0 i (by omega)]
  rw [writeStringB_out _ 257 6 _ i (by omega)]
  rw [bufSet_out _ 156 typeflag i (by omega)]
  rw [bufFill_in _ 148 156 32 i h1 h2]

/-- Outside the checksum field, `createHeader` agrees with the pre-checksum
header. -/
theorem createHeader_out (path : Bytes) (size mode mtime typeflag i : Nat)
    (h : i < 148 ∨ 156 ≤ i) :
    createHeader path size mode mtime typeflag i =
      headerPre path size mode mtime typeflag i := by
  rw [createHeader]
  rw [bufSet_out _ 155 32 i (by omega)]
  rw [bufSet_out _ 154 0 i (by omega)]
  exact writeStringB_out _ 148 6 _ i (by omega)

/-- Refilling the finished header's checksum field with spaces recovers the
pre-checksum header exactly. -/
theorem fill_createHeader (path : Bytes) (size mode mtime typeflag : Nat) :
    bufFill (createHeader path size mode mtime typeflag) 148 156 32 =
      headerPre path size mode mtime typeflag := by
  funext i
  by_cases h : 148 ≤ i ∧ i < 156
  · rw [bufFill_in _ 148 156 32 i h.1 h.2, headerPre_chk path size mode mtime typeflag i h.1 h.2]
  · rw [bufFill_out _ 148 156 32 i (by omega)]
    exact createHeader_out path size mode mtime typeflag i (by omega)

/-- The header checksum value fits in six octal digits. -/
theorem headerSum_lt (path : Bytes) (size mode mtime typeflag : Nat) :
    headerSum (headerPre path size mode mtime typeflag) < 8 ^ 6 := by
  have := headerSum_le (headerPre_lt path size mode mtime typeflag)
  omega

/-- Bytes 148-153 of the finished header are the zero-padded octal ASCII
digits of the pre-checksum sum. -/
theorem createHeader_chk (path : Bytes) (size mode mtime typeflag : Nat) (k : Nat)
    (hk : k < 6) :
    createHeader path size mode mtime typeflag (148 + k) =
      (padZeros 6 (octBytes (headerSum (headerPre path size mode mtime typeflag)))).getD
        k 0 := by
  have hlen6 :
      (padZeros 6 (octBytes (headerSum (headerPre path size mode mtime typeflag)))).length =
        6 :=
    padZeros_len (octBytes_len_le (headerSum_lt path size mode mtime typeflag))
  rw [createHeader]
  rw [bufSet_out _ 155 32 (148 + k) (by omega)]
  rw [bufSet_out _ 154 0 (148 + k) (by omega)]
  rw [writeStringB]
  rw [bufWrite_in _ 148 _ (148 + k) (by omega)
    (by rw [List.length_take, hlen6]; omega)]
  have hidx : 148 + k - 148 = k := by omega
  rw [hidx]
  have htake :
      ((padZeros 6 (octBytes (headerSum (headerPre path size mode mtime typeflag)))).take
        6).getD k 0 =
      (padZeros 6 (octBytes (headerSum (headerPre path size mode mtime typeflag)))).getD
        k 0 := by
    rw [List.getD_eq_getElem _ _ (by rw [List.length_take, hlen6]; omega)]
    rw [List.getD_eq_getElem _ _ (by rw [hlen6]; omega)]
    exact List.getElem_take _
  rw [htake]
  apply Nat.mod_eq_of_lt
  have hmem : (padZeros 6 (octBytes (headerSum (headerPre path size mode mtime
      typeflag)))).getD k 0 ∈
      padZeros 6 (octBytes (headerSum (headerPre path size mode mtime typeflag))) := by
    rw [List.getD_eq_getElem _ _ (by rw [hlen6]; omega)]
    exact List.getElem_mem _
  have := padZeros_octBytes_bounds _ hmem
  omega

/-- Claim C1: in every header built by `createHeader` (hence for every entry
`createTar` encodes), bytes 148-153 are octal ASCII digits whose 6-digit
zero-padded value is the unsigned sum of all 512 header bytes taken with
the checksum field (148-155) refilled with ASCII spaces, byte 154 is NUL
and byte 155 is an ASCII space. -/
theorem c1_checksum (path : Bytes) (size mode mtime typeflag : Nat) :
    (∀ k, k < 6 → 48 ≤ createHeader path size mode mtime typeflag (148 + k) ∧
      createHeader path size mode mtime typeflag (148 + k) < 56) ∧
    Nat.ofDigits 8 (((List.range 6).map
        (fun k => createHeader path size mode mtime typeflag (148 + k) - 48)).reverse) =
      headerSum (bufFill (createHeader path size mode mtime typeflag) 148 156 32) ∧
    createHeader path size mode mtime typeflag 154 = 0 ∧
    createHeader path size mode mtime typeflag 155 = 32 := by
  have hlen6 :
      (padZeros 6 (octBytes (headerSum (headerPre path size mode mtime typeflag)))).length =
        6 :=
    padZeros_len (octBytes_len_le (headerSum_lt path size mode mtime typeflag))
  refine ⟨?_, ?_, ?_, ?_⟩
  · intro k hk
    rw [createHeader_chk path size mode mtime typeflag k hk]
    have hmem : (padZeros 6 (octBytes (headerSum (headerPre path size mode mtime
        typeflag)))).getD k 0 ∈
        padZeros 6 (octBytes (headerSum (headerPre path size mode mtime typeflag))) := by
      rw [List.getD_eq_getElem _ _ (by rw [hlen6]; omega)]
      exact List.getElem_mem _
    exact padZeros_octBytes_bounds _ hmem
  · rw [fill_createHeader]
    have hlist : (List.range 6).map
        (fun k => createHeader path size mode mtime typeflag (148 + k) - 48) =
        (padZeros 6 (octBytes (headerSum (headerPre path size mode mtime
          typeflag)))).map (fun c => c - 48) := by
      apply List.ext_getElem
      · rw [List.length_map, List.length_range, List.length_map, hlen6]
      · intro i hi1 hi2
        rw [List.getElem_map, List.getElem_range, List.getElem_map]
        rw [List.length_map, List.length_range] at hi1
        rw [createHeader_chk path size mode mtime typeflag i hi1]
        rw [List.getD_eq_getElem _ _ (by rw [hlen6]; omega)]
    rw [hlist]
    exact octVal (headerSum_lt path size mode mtime typeflag)
  · rw [createHeader]
    rw [bufSet_out _ 155 32 154 (by omega)]
    rw [bufSet, if_pos rfl]
  · rw [createHeader]
    rw [bufSet, if_pos rfl]

/-- Witness for C1 at a concrete header (`a.txt`, 3 bytes, mode 420, epoch
0, type `'0'` = 48): the checksum digits, NUL and trailing space are in
place, and reading the digits back yields the header sum over the
space-refilled header. -/
theorem c1_checksum_witness :
    (48 ≤ createHeader (strBytes "a.txt") 3 420 0 48 (148 + 0) ∧
      createHeader (strBytes "a.txt") 3 420 0 48 (148 + 0) < 56) ∧
    Nat.ofDigits 8 (((List.range 6).map
        (fun k => createHeader (strBytes "a.txt") 3 420 0 48 (148 + k) - 48)).reverse) =
      headerSum (bufFill (createHeader (strBytes "a.txt") 3 420 0 48) 148 156 32) ∧
    createHeader (strBytes "a.txt") 3 420 0 48 154 = 0 ∧
    createHeader (strBytes "a.txt") 3 420 0 48 155 = 32 :=
  ⟨(c1_checksum (strBytes "a.txt") 3 420 0 48).1 0 (by decide),
   (c1_checksum (strBytes "a.txt") 3 420 0 48).2.1,
   (c1_checksum (strBytes "a.txt") 3 420 0 48).2.2.1,
   (c1_checksum (strBytes "a.txt") 3 420 0 48).2.2.2⟩

/-!
Claim C7 (opted-out asset kinds).
-/

/-- Every candidate the numeric scan returns extends the base with an
underscore. -/
theorem dedupeScan_shape (base ext : Bytes) (used : SetFn) :
    ∀ fuel i c, dedupeScan base ext used fuel i = some c →
      ∃ j, c = dedupeCand base ext j := by
  intro fuel
  induction fuel with
  | zero =>
    intro i c h
    simp [dedupeScan] at h
  | succ f ih =>
    intro i c h
    rw [dedupeScan] at h
    by_cases hu : used (dedupeCand base ext i)
    · rw [if_pos hu] at h
      exact ih (i + 1) c h
    · rw [if_neg hu] at h
      cases h
      exact ⟨i, rfl⟩

/-- Prefixes agree with the list on early positions. -/
theorem IsPrefix_getD {pre p : Bytes} (h : pre <+: p) {i : Nat} (hi : i < pre.length) :
    p.getD i 0 = pre.getD i 0 := by
  obtain ⟨t, ht⟩ := h
  subst ht
  rw [List.getD_eq_getElem _ _ (by rw [List.length_append]; omega)]
  rw [List.getD_eq_getElem _ _ hi]
  exact List.getElem_append_left hi

/-- `dedupePath` preserves any dot-free prefix of its input: the numeric and
hash suffixes are inserted at the last dot, which cannot lie inside a
dot-free prefix. -/
theorem dedupePath_keeps_prefix {pre p : Bytes} (used : SetFn) (hdot : 46 ∉ pre)
    (h : pre <+: p) : pre <+: (dedupePath p used).1 := by
  rw [dedupePath]
  by_cases hu : used p
  · rw [if_pos hu]
    have hbase : pre <+: (match lastIdxOf p 46 with | some i => p.take i | none => p) := by
      cases hlast : lastIdxOf p 46 with
      | none => exact h
      | some idx =>
        obtain ⟨hlt, hc⟩ := lastIdxOf_some hlast
        have hple : pre.length ≤ idx := by
          by_contra hcon
          have := IsPrefix_getD h (by omega : idx < pre.length)
          rw [hc] at this
          apply hdot
          rw [this, List.getD_eq_getElem pre 0 (by omega)]
          exact List.getElem_mem _
        obtain ⟨t, ht⟩ := h
        subst ht
        dsimp only
        rw [List.take_append_eq_append_take, List.take_of_length_le hple]
        exact List.prefix_append pre _
    dsimp only
    cases hscan : dedupeScan
        (match lastIdxOf p 46 with | some i => p.take i | none => p)
        (match lastIdxOf p 46 with | some i => p.drop i | none => ([] : Bytes))
        used 998 2 with
    | none =>
      dsimp only
      exact hbase.trans
        (((List.prefix_append _ _).trans (List.prefix_append _ _)).trans
          (List.prefix_append _ _))
    | some c =>
      dsimp only
      obtain ⟨j, hj⟩ := dedupeScan_shape _ _ used 998 2 c hscan
      rw [hj, dedupeCand]
      exact hbase.trans
        (((List.prefix_append _ _).trans (List.prefix_append _ _)).trans
          (List.prefix_append _ _))
  · rw [if_neg hu]
    exact h

/-- A successfully downloaded asset records the fetched URL and body, and a
deduplicated relative path built by `buildRelativeAssetPath` for its
kind. -/
theorem downloadAsset_some_shape (net : Bytes → Option NetResp) (u : Bytes) (k : AssetKind)
    (used : SetFn) (total : Nat) (a : DownloadedAsset)
    (h : (downloadAsset net u k used total).1 = some a) :
    ∃ r fname, net u = some r ∧
      a = ⟨u, (dedupePath (buildRelativeAssetPath u r.parts k fname) used).1, r.body⟩ := by
  rw [downloadAsset] at h
  cases hnet : net u with
  | none =>
    rw [hnet] at h
    cases h
  | some r =>
    rw [hnet] at h
    dsimp only at h
    by_cases c1 : k = AssetKind.files ∧ (strBytes "text/html").isPrefixOf (asciiLower r.contentType)
    · rw [if_pos c1] at h
      cases h
    · rw [if_neg c1] at h
      by_cases c2 : r.body.length = 0
      · rw [if_pos c2] at h
        cases h
      · rw [if_neg c2] at h
        by_cases c3 : MAX_ASSET_BYTES < r.body.length
        · rw [if_pos c3] at h
          cases h
        · rw [if_neg c3] at h
          by_cases c4 : MAX_TOTAL_ASSET_BYTES < total + r.body.length
          · rw [if_pos c4] at h
            cases h
          · rw [if_neg c4] at h
            dsimp only at h
            cases h
            exact ⟨r, _, rfl, rfl⟩

/-- The relative path of an images-kind asset starts with
`assets/images/`. -/
theorem downloadAsset_images_prefix (net : Bytes → Option NetResp) (u : Bytes)
    (used : SetFn) (total : Nat) (a : DownloadedAsset)
    (h : (downloadAsset net u AssetKind.images used total).1 = some a) :
    strBytes "assets/images/" <+: a.relativePath := by
  obtain ⟨r, fname, _, ha⟩ := downloadAsset_some_shape net u AssetKind.images used total a h
  rw [ha]
  apply dedupePath_keeps_prefix used (by decide)
  rw [buildRelativeAssetPath]
  have hshape : strBytes "assets/" ++ kindStr AssetKind.images ++ [47] =
      strBytes "assets/images/" := by decide
  refine List.IsPrefix.trans ?_ (List.prefix_append _ _)
  refine List.IsPrefix.trans ?_ (List.prefix_append _ _)
  refine List.IsPrefix.trans ?_ (List.prefix_append _ _)
  rw [hshape]

/-- Every accepted asset of an images-only schedule has a relative path
under `assets/images/`. -/
theorem runDownloads_images_prefix (net : Bytes → Option NetResp) :
    ∀ (items : List (AssetKind × Bytes)) (used : SetFn) (total : Nat),
      (∀ x ∈ items, x.1 = AssetKind.images) →
      ∀ a ∈ acceptedAssets (runDownloads net items used total).1,
        strBytes "assets/images/" <+: a.relativePath := by
  intro items
  induction items with
  | nil =>
    intro used total _ a ha
    simp [runDownloads, acceptedAssets] at ha
  | cons item rest ih =>
    intro used total hk a ha
    obtain ⟨k, u⟩ := item
    have hk1 : k = AssetKind.images := hk (k, u) (List.mem_cons_self _ _)
    subst hk1
    cases hres : (downloadAsset net u AssetKind.images used total).1 with
    | none =>
      simp only [runDownloads, acceptedAssets, List.filterMap_cons, hres, id_eq] at ha
      exact ih _ _ (fun x hx => hk x (List.mem_cons_of_mem _ hx)) a ha
    | some a0 =>
      simp only [runDownloads, acceptedAssets, List.filterMap_cons, hres, id_eq] at ha
      rcases List.mem_cons.mp ha with h1 | h2
      · rw [h1]
        exact downloadAsset_images_prefix net u used total a0 hres
      · exact ih _ _ (fun x hx => hk x (List.mem_cons_of_mem _ hx)) a h2

/-- The relative path of a files-kind asset starts with
`assets/files/`. -/
theorem downloadAsset_files_prefix (net : Bytes → Option NetResp) (u : Bytes)
    (used : SetFn) (total : Nat) (a : DownloadedAsset)
    (h : (downloadAsset net u AssetKind.files used total).1 = some a) :
    strBytes "assets/files/" <+: a.relativePath := by
  obtain ⟨r, fname, _, ha⟩ := downloadAsset_some_shape net u AssetKind.files used total a h
  rw [ha]
  apply dedupePath_keeps_prefix used (by decide)
  rw [buildRelativeAssetPath]
  have hshape : strBytes "assets/" ++ kindStr AssetKind.files ++ [47] =
      strBytes "assets/files/" := by decide
  refine List.IsPrefix.trans ?_ (List.prefix_append _ _)
  refine List.IsPrefix.trans ?_ (List.prefix_append _ _)
  refine List.IsPrefix.trans ?_ (List.prefix_append _ _)
  rw [hshape]

/-- Every accepted asset of a files-only schedule has a relative path
under `assets/files/`. -/
theorem runDownloads_files_prefix (net : Bytes → Option NetResp) :
    ∀ (items : List (AssetKind × Bytes)) (used : SetFn) (total : Nat),
      (∀ x ∈ items, x.1 = AssetKind.files) →
      ∀ a ∈ acceptedAssets (runDownloads net items used total).1,
        strBytes "assets/files/" <+: a.relativePath := by
  intro items
  induction items with
  | nil =>
    intro used total _ a ha
    simp [runDownloads, acceptedAssets] at ha
  | cons item rest ih =>
    intro used total hk a ha
    obtain ⟨k, u⟩ := item
    have hk1 : k = AssetKind.files := hk (k, u) (List.mem_cons_self _ _)
    subst hk1
    cases hres : (downloadAsset net u AssetKind.files used total).1 with
    | none =>
      simp only [runDownloads, acceptedAssets, List.filterMap_cons, hres, id_eq] at ha
      exact ih _ _ (fun x hx => hk x (List.mem_cons_of_mem _ hx)) a ha
    | some a0 =>
      simp only [runDownloads, acceptedAssets, List.filterMap_cons, hres, id_eq] at ha
      rcases List.mem_cons.mp ha with h1 | h2
      · rw [h1]
        exact downloadAsset_files_prefix net u used total a0 hres
      · exact ih _ _ (fun x hx => hk x (List.mem_cons_of_mem _ hx)) a h2

/-- With `downloadFiles` off, the scheduled list — the exact list of asset
fetches issued — contains only images-kind items. -/
theorem scheduledAssets_images (m : AssetManifest) (options : PackageOptions)
    (h : options.downloadFiles = false) :
    ∀ x ∈ scheduledAssets m options, x.1 = AssetKind.images := by
  intro x hx
  simp only [scheduledAssets, pickAssets, h, Bool.false_eq_true, if_false, List.map_nil,
    List.append_nil] at hx
  obtain ⟨u, _, hxu⟩ := List.mem_map.mp hx
  rw [← hxu]

/-- With `downloadImages` off, the scheduled list contains only files-kind
items. -/
theorem scheduledAssets_files (m : AssetManifest) (options : PackageOptions)
    (h : options.downloadImages = false) :
    ∀ x ∈ scheduledAssets m options, x.1 = AssetKind.files := by
  intro x hx
  simp only [scheduledAssets, pickAssets, h, Bool.false_eq_true, if_false, List.map_nil,
    List.nil_append] at hx
  obtain ⟨u, _, hxu⟩ := List.mem_map.mp hx
  rw [← hxu]

/-- Claim C7: a disabled asset kind is neither fetched nor present in the
archive.  With `downloadFiles = false` only images-kind fetches are
scheduled and no archive entry of the job lies under
`{folder}/assets/files/`; with `downloadImages = false` only files-kind
fetches are scheduled and no archive entry of the job lies under
`{folder}/assets/images/`. -/
theorem c7_disabled_files :
    (∀ (m : AssetManifest) (options : PackageOptions), options.downloadFiles = false →
      ∀ x ∈ scheduledAssets m options, x.1 = AssetKind.images) ∧
    (∀ (m : AssetManifest) (options : PackageOptions), options.downloadImages = false →
      ∀ x ∈ scheduledAssets m options, x.1 = AssetKind.files) ∧
    (∀ (net : Bytes → Option NetResp) (host : Bytes → Bytes) (options : PackageOptions)
      (index : Nat) (url : Bytes) (outcome : Outcome) (total : Nat),
      options.downloadFiles = false →
      ∀ e ∈ (processJob net host options index url outcome total).2.1,
        ¬ ((processJob net host options index url outcome total).1.folder ++
          strBytes "/assets/files/") <+: e.path) ∧
    (∀ (net : Bytes → Option NetResp) (host : Bytes → Bytes) (options : PackageOptions)
      (index : Nat) (url : Bytes) (outcome : Outcome) (total : Nat),
      options.downloadImages = false →
      ∀ e ∈ (processJob net host options index url outcome total).2.1,
        ¬ ((processJob net host options index url outcome total).1.folder ++
          strBytes "/assets/images/") <+: e.path) := by
  have hsplitF : strBytes "/assets/files/" = 47 :: strBytes "assets/files/" := by decide
  have hsplitI : strBytes "/assets/images/" = 47 :: strBytes "assets/images/" := by decide
  have hassoc : ∀ (f rest : Bytes), f ++ 47 :: rest = (f ++ [47]) ++ rest := by
    intro f rest
    simp
  refine ⟨scheduledAssets_images, scheduledAssets_files, ?_, ?_⟩
  · intro net host options index url outcome total h e he hpre
    cases outcome with
    | err er =>
      simp only [processJob] at he hpre
      rw [List.mem_singleton] at he
      rw [he] at hpre
      dsimp only at hpre
      rw [hsplitF, hassoc] at hpre
      rw [List.prefix_append_right_inj] at hpre
      exact absurd hpre (by decide)
    | ok r assets =>
      simp only [processJob] at he hpre
      rcases List.mem_append.mp he with hm | hl
      · obtain ⟨a, haMem, hae⟩ := List.mem_map.mp hm
        rw [← hae] at hpre
        dsimp only at hpre
        have hrp := runDownloads_images_prefix net (scheduledAssets assets options) setEmpty
          total (scheduledAssets_images assets options h) a haMem
        rw [hsplitF, hassoc] at hpre
        rw [List.prefix_append_right_inj] at hpre
        rcases List.prefix_or_prefix_of_prefix hrp hpre with hd | hd
        · exact absurd hd (by decide)
        · exact absurd hd (by decide)
      · rw [List.mem_singleton] at hl
        rw [hl] at hpre
        dsimp only at hpre
        rw [hsplitF, hassoc] at hpre
        rw [List.prefix_append_right_inj] at hpre
        exact absurd hpre (by decide)
  · intro net host options index url outcome total h e he hpre
    cases outcome with
    | err er =>
      simp only [processJob] at he hpre
      rw [List.mem_singleton] at he
      rw [he] at hpre
      dsimp only at hpre
      rw [hsplitI, hassoc] at hpre
      rw [List.prefix_append_right_inj] at hpre
      exact absurd hpre (by decide)
    | ok r assets =>
      simp only [processJob] at he hpre
      rcases List.mem_append.mp he with hm | hl
      · obtain ⟨a, haMem, hae⟩ := List.mem_map.mp hm
        rw [← hae] at hpre
        dsimp only at hpre
        have hrp := runDownloads_files_prefix net (scheduledAssets assets options) setEmpty
          total (scheduledAssets_files assets options h) a haMem
        rw [hsplitI, hassoc] at hpre
        rw [List.prefix_append_right_inj] at hpre
        rcases List.prefix_or_prefix_of_prefix hrp hpre with hd | hd
        · exact absurd hd (by decide)
        · exact absurd hd (by decide)
      · rw [List.mem_singleton] at hl
        rw [hl] at hpre
        dsimp only at hpre
        rw [hsplitI, hassoc] at hpre
        rw [List.prefix_append_right_inj] at hpre
        exact absurd hpre (by decide)

/-- Witness for C7: with files disabled, a manifest listing one image and
one file URL schedules only the image and a failed job's entries avoid
`assets/files/`; with images disabled, the same manifest schedules only the
file and a failed job's entries avoid `assets/images/`. -/
theorem c7_disabled_files_witness :
    (∀ x ∈ scheduledAssets ⟨[strBytes "http://x/i.png"], [strBytes "http://x/f.pdf"]⟩
      ⟨true, false⟩, x.1 = AssetKind.images) ∧
    (∀ x ∈ scheduledAssets ⟨[strBytes "http://x/i.png"], [strBytes "http://x/f.pdf"]⟩
      ⟨false, true⟩, x.1 = AssetKind.files) ∧
    (∀ e ∈ (processJob (fun _ => none) (fun _ => strBytes "x") ⟨true, false⟩ 0
        (strBytes "http://x") (Outcome.err (strBytes "boom")) 0).2.1,
      ¬ ((processJob (fun _ => none) (fun _ => strBytes "x") ⟨true, false⟩ 0
        (strBytes "http://x") (Outcome.err (strBytes "boom")) 0).1.folder ++
        strBytes "/assets/files/") <+: e.path) ∧
    (∀ e ∈ (processJob (fun _ => none) (fun _ => strBytes "x") ⟨false, true⟩ 0
        (strBytes "http://x") (Outcome.err (strBytes "boom")) 0).2.1,
      ¬ ((processJob (fun _ => none) (fun _ => strBytes "x") ⟨false, true⟩ 0
        (strBytes "http://x") (Outcome.err (strBytes "boom")) 0).1.folder ++
        strBytes "/assets/images/") <+: e.path) :=
  ⟨c7_disabled_files.1 ⟨[strBytes "http://x/i.png"], [strBytes "http://x/f.pdf"]⟩
    ⟨true, false⟩ rfl,
   c7_disabled_files.2.1 ⟨[strBytes "http://x/i.png"], [strBytes "http://x/f.pdf"]⟩
    ⟨false, true⟩ rfl,
   c7_disabled_files.2.2.1 (fun _ => none) (fun _ => strBytes "x") ⟨true, false⟩ 0
    (strBytes "http://x") (Outcome.err (strBytes "boom")) 0 rfl,
   c7_disabled_files.2.2.2 (fun _ => none) (fun _ => strBytes "x") ⟨false, true⟩ 0
    (strBytes "http://x") (Outcome.err (strBytes "boom")) 0 rfl⟩

/-!
Claim C6 (manifest counts, one folder per URL, error placeholders).
-/

/-- The error placeholder document contains the URL and the error text. -/
theorem errorMd_contains (url e : Bytes) :
    url <:+: errorMdContent url e ∧ e <:+: errorMdContent url e := by
  constructor
  · refine ⟨strBytes "# 提取失败\n\n**来源**: ", strBytes "\n\n**错误**: " ++ e ++ [10], ?_⟩
    simp [errorMdContent]
  · refine ⟨strBytes "# 提取失败\n\n**来源**: " ++ url ++ strBytes "\n\n**错误**: ", [10], ?_⟩
    simp [errorMdContent]

/-- Filtering a list by a predicate and by its negation partitions its
length. -/
theorem length_filter_add (l : List (JobRecord × List TarEntryM))
    (p : JobRecord × List TarEntryM → Bool) :
    (l.filter p).length + (l.filter (fun x => !p x)).length = l.length := by
  induction l with
  | nil => rfl
  | cons a rest ih =>
    by_cases hp : p a
    · rw [List.filter_cons_of_pos hp, List.filter_cons_of_neg (by simp [hp])]
      simp only [List.length_cons]
      omega
    · rw [List.filter_cons_of_neg hp, List.filter_cons_of_pos (by simp [Bool.eq_false_iff.mpr hp])]
      simp only [List.length_cons]
      omega

/-- Mapping equal images along a pointwise relation gives equal lists. -/
theorem forall2_map_eq {α β γ : Type} {R : α → β → Prop} {l₁ : List α} {l₂ : List β}
    (h : List.Forall₂ R l₁ l₂) (f : α → γ) (g : β → γ)
    (hfg : ∀ a b, R a b → f a = g b) : l₁.map f = l₂.map g := by
  induction h with
  | nil => rfl
  | cons hab _ ih =>
    simp only [List.map_cons]
    rw [hfg _ _ hab, ih]

/-- Every left element of a pointwise-related pair of lists has a related
right element. -/
theorem forall2_mem_left {α β : Type} {R : α → β → Prop} {l₁ : List α} {l₂ : List β}
    (h : List.Forall₂ R l₁ l₂) : ∀ a ∈ l₁, ∃ b, R a b := by
  induction h with
  | nil =>
    intro a ha
    cases ha
  | cons hab _ ih =>
    intro a ha
    rcases List.mem_cons.mp ha with h1 | h2
    · exact ⟨_, h1 ▸ hab⟩
    · exact ih a h2

/-- For run sizes up to 20, the three-digit zero-padded index prefix has
exactly three characters. -/
theorem pad3_len20 : ∀ i, i < 20 → (padZeros 3 (natDec (i + 1))).length = 3 := by
  decide

/-- For run sizes up to 20, distinct indices give distinct three-digit
prefixes. -/
theorem pad3_inj20 : ∀ i, i < 20 → ∀ j, j < 20 → i ≠ j →
    padZeros 3 (natDec (i + 1)) ≠ padZeros 3 (natDec (j + 1)) := by
  decide

/-- The first three characters of a job folder are its index prefix. -/
theorem safeArticleFolder_take3 (host ttl : Bytes) (i : Nat) (hi : i < 20) :
    (safeArticleFolder host ttl i).take 3 = padZeros 3 (natDec (i + 1)) := by
  rw [safeArticleFolder]
  rw [List.append_assoc]
  exact List.take_left' (pad3_len20 i hi)

/-- One loop iteration: the record carries the job's URL and an
index-prefixed folder, the job contributes at least one entry, all its
entries sit under its folder, and a failed job's contribution is exactly
the error placeholder (no `index.md`). -/
theorem processJob_spec (net : Bytes → Option NetResp) (host : Bytes → Bytes)
    (options : PackageOptions) (index : Nat) (url : Bytes) (outcome : Outcome) (total : Nat) :
    (processJob net host options index url outcome total).1.url = url ∧
    (∃ ttl, (processJob net host options index url outcome total).1.folder =
      safeArticleFolder (host url) ttl index) ∧
    (processJob net host options index url outcome total).2.1 ≠ [] ∧
    (∀ e ∈ (processJob net host options index url outcome total).2.1,
      ((processJob net host options index url outcome total).1.folder ++ [47]) <+: e.path) ∧
    ((processJob net host options index url outcome total).1.ok = false →
      ∃ er, (processJob net host options index url outcome total).1.error = some er ∧
        (processJob net host options index url outcome total).2.1 =
          [⟨(processJob net host options index url outcome total).1.folder ++ [47] ++
              strBytes "error.md",
            errorMdContent (processJob net host options index url outcome total).1.url er⟩]) := by
  cases outcome with
  | err er =>
    refine ⟨rfl, ⟨[], rfl⟩, by simp [processJob], ?_, ?_⟩
    · intro e he
      simp only [processJob] at he ⊢
      rw [List.mem_singleton] at he
      rw [he]
      exact List.prefix_append _ _
    · intro _
      exact ⟨er, rfl, rfl⟩
  | ok r assets =>
    refine ⟨rfl, ⟨r.title, rfl⟩, by simp [processJob], ?_, ?_⟩
    · intro e he
      simp only [processJob] at he ⊢
      rcases List.mem_append.mp he with hm | hl
      · obtain ⟨a, _, hae⟩ := List.mem_map.mp hm
        rw [← hae]
        exact List.prefix_append _ _
      · rw [List.mem_singleton] at hl
        rw [hl]
        exact List.prefix_append _ _
    · intro hfalse
      simp [processJob] at hfalse

/-- The job loop relates its outputs pointwise to its input items. -/
theorem runJobs_spec (net : Bytes → Option NetResp) (host : Bytes → Bytes)
    (options : PackageOptions) :
    ∀ (items : List (Nat × Bytes × Outcome)) (t0 : Nat),
      List.Forall₂ (fun (jo : JobRecord × List TarEntryM) (it : Nat × Bytes × Outcome) =>
        jo.1.url = it.2.1 ∧
        (∃ ttl, jo.1.folder = safeArticleFolder (host it.2.1) ttl it.1) ∧
        jo.2 ≠ [] ∧
        (∀ e ∈ jo.2, (jo.1.folder ++ [47]) <+: e.path) ∧
        (jo.1.ok = false → ∃ er, jo.1.error = some er ∧
          jo.2 = [⟨jo.1.folder ++ [47] ++ strBytes "error.md",
            errorMdContent jo.1.url er⟩]))
        (runJobs net host options items t0).1 items := by
  intro items
  induction items with
  | nil =>
    intro t0
    exact List.Forall₂.nil
  | cons item rest ih =>
    intro t0
    obtain ⟨i, u, oc⟩ := item
    rw [runJobs]
    exact List.Forall₂.cons (processJob_spec net host options i u oc t0) (ih _)

/-- Claim C6: for a validated run (at most 20 URLs) the manifest has
`total = n`, `success + failed = n`, exactly one results record per URL in
order; folders are pairwise distinct, every record's folder is inhabited in
the archive, every archive entry is `manifest.json` or lies under exactly
the folder of some record, and a failed job contributes exactly one entry —
the error placeholder naming the URL and the error — and no `index.md`. -/
theorem c6_manifest (net : Bytes → Option NetResp) (host : Bytes → Bytes)
    (extract : Bytes → Outcome) (jsonSer : ManifestM → Bytes) (options : PackageOptions)
    (urls : List Bytes) (hn : urls.length ≤ 20) :
    (processRun net host extract jsonSer options urls).1.total = urls.length ∧
    (processRun net host extract jsonSer options urls).1.success +
      (processRun net host extract jsonSer options urls).1.failed = urls.length ∧
    (processRun net host extract jsonSer options urls).1.results.map
      (fun rec => rec.url) = urls ∧
    ((processRun net host extract jsonSer options urls).1.results.map
      (fun rec => rec.folder)).Pairwise (· ≠ ·) ∧
    (∀ rec ∈ (processRun net host extract jsonSer options urls).1.results,
      ∃ e ∈ (processRun net host extract jsonSer options urls).2,
        (rec.folder ++ [47]) <+: e.path) ∧
    (∀ e ∈ (processRun net host extract jsonSer options urls).2,
      e.path = strBytes "manifest.json" ∨
      ∃ rec ∈ (processRun net host extract jsonSer options urls).1.results,
        (rec.folder ++ [47]) <+: e.path) ∧
    (∀ jo ∈ (runJobs net host options
        (urls.enum.map (fun p => (p.1, p.2, extract p.2))) 0).1,
      jo.2 ≠ [] ∧
      (jo.1.ok = false → ∃ er, jo.1.error = some er ∧
        jo.2 = [⟨jo.1.folder ++ [47] ++ strBytes "error.md", errorMdContent jo.1.url er⟩] ∧
        jo.1.url <:+: errorMdContent jo.1.url er ∧
        er <:+: errorMdContent jo.1.url er)) := by
  have F2 := runJobs_spec net host options (urls.enum.map (fun p => (p.1, p.2, extract p.2))) 0
  have hlenItems : (urls.enum.map (fun p : Nat × Bytes => (p.1, p.2, extract p.2))).length =
      urls.length := by
    rw [List.length_map, List.enum_length]
  have hlenOuts : (runJobs net host options
      (urls.enum.map (fun p => (p.1, p.2, extract p.2))) 0).1.length = urls.length := by
    rw [F2.length_eq, hlenItems]
  refine ⟨rfl, ?_, ?_, ?_, ?_, ?_, ?_⟩
  · have := length_filter_add (runJobs net host options
      (urls.enum.map (fun p => (p.1, p.2, extract p.2))) 0).1 (fun o => o.1.ok)
    rw [hlenOuts] at this
    exact this
  · have hmap : (runJobs net host options
        (urls.enum.map (fun p => (p.1, p.2, extract p.2))) 0).1.map (fun o => o.1.url) =
        (urls.enum.map (fun p : Nat × Bytes => (p.1, p.2, extract p.2))).map
          (fun it => it.2.1) :=
      forall2_map_eq F2 _ _ (fun a b hab => hab.1)
    have hitems : (urls.enum.map (fun p : Nat × Bytes => (p.1, p.2, extract p.2))).map
        (fun it => it.2.1) = urls := by
      rw [List.map_map]
      rw [show ((fun it : Nat × Bytes × Outcome => it.2.1) ∘
        (fun p : Nat × Bytes => (p.1, p.2, extract p.2))) = Prod.snd from rfl]
      exact List.enum_map_snd urls
    show ((runJobs net host options
      (urls.enum.map (fun p => (p.1, p.2, extract p.2))) 0).1.map (fun o => o.1)).map
        (fun rec => rec.url) = urls
    rw [List.map_map]
    exact hmap.trans hitems
  · show (((runJobs net host options
      (urls.enum.map (fun p => (p.1, p.2, extract p.2))) 0).1.map (fun o => o.1)).map
        (fun rec => rec.folder)).Pairwise (· ≠ ·)
    rw [List.map_map]
    rw [List.pairwise_iff_getElem]
    intro j k hj hk hjk
    rw [List.length_map] at hj hk
    rw [List.getElem_map, List.getElem_map]
    obtain ⟨hlen2, hpt⟩ := List.forall₂_iff_get.mp F2
    have hjR := hpt j (by omega) (by rw [hlenItems, ← hlenOuts]; omega)
    have hkR := hpt k (by omega) (by rw [hlenItems, ← hlenOuts]; omega)
    simp only [List.get_eq_getElem, List.getElem_map, List.getElem_enum] at hjR hkR
    obtain ⟨tj, htj⟩ := hjR.2.1
    obtain ⟨tk, htk⟩ := hkR.2.1
    intro hEq
    simp only [Function.comp_apply] at hEq
    rw [htj, htk] at hEq
    have h3 : (safeArticleFolder (host urls[j]) tj j).take 3 =
        (safeArticleFolder (host urls[k]) tk k).take 3 := by
      rw [hEq]
    rw [safeArticleFolder_take3 _ _ j (by omega), safeArticleFolder_take3 _ _ k (by omega)]
      at h3
    exact pad3_inj20 j (by omega) k (by omega) (by omega) h3
  · intro rec hrec
    obtain ⟨jo, hjo, hjorec⟩ := List.mem_map.mp hrec
    obtain ⟨it, hR⟩ := forall2_mem_left F2 jo hjo
    obtain ⟨e, he⟩ := List.exists_mem_of_ne_nil _ hR.2.2.1
    refine ⟨e, ?_, ?_⟩
    · apply List.mem_append_left
      rw [List.mem_flatten]
      exact ⟨jo.2, List.mem_map_of_mem _ hjo, he⟩
    · rw [← hjorec]
      exact hR.2.2.2.1 e he
  · intro e he
    rcases List.mem_append.mp he with hfl | hman
    · right
      rw [List.mem_flatten] at hfl
      obtain ⟨l, hl, hel⟩ := hfl
      obtain ⟨jo, hjo, hjol⟩ := List.mem_map.mp hl
      obtain ⟨it, hR⟩ := forall2_mem_left F2 jo hjo
      refine ⟨jo.1, List.mem_map_of_mem _ hjo, ?_⟩
      rw [← hjol] at hel
      exact hR.2.2.2.1 e hel
    · left
      rw [List.mem_singleton] at hman
      rw [hman]
  · intro jo hjo
    obtain ⟨it, hR⟩ := forall2_mem_left F2 jo hjo
    refine ⟨hR.2.2.1, ?_⟩
    intro hok
    obtain ⟨er, her, hent⟩ := hR.2.2.2.2 hok
    exact ⟨er, her, hent, (errorMd_contains jo.1.url er).1, (errorMd_contains jo.1.url er).2⟩

theorem c6_manifest_witness :
    (processRun (fun _ => none) (fun _ => strBytes "h")
      (fun u => if u = strBytes "http://a/"
        then Outcome.ok ⟨u, [], [], [], strBytes "hi"⟩ ⟨[], []⟩
        else Outcome.err (strBytes "boom"))
      (fun _ => []) ⟨true, true⟩
      [strBytes "http://a/", strBytes "http://b/"]).1.total =
        [strBytes "http://a/", strBytes "http://b/"].length ∧
    (processRun (fun _ => none) (fun _ => strBytes "h")
      (fun u => if u = strBytes "http://a/"
        then Outcome.ok ⟨u, [], [], [], strBytes "hi"⟩ ⟨[], []⟩
        else Outcome.err (strBytes "boom"))
      (fun _ => []) ⟨true, true⟩
      [strBytes "http://a/", strBytes "http://b/"]).1.success +
    (processRun (fun _ => none) (fun _ => strBytes "h")
      (fun u => if u = strBytes "http://a/"
        then Outcome.ok ⟨u, [], [], [], strBytes "hi"⟩ ⟨[], []⟩
        else Outcome.err (strBytes "boom"))
      (fun _ => []) ⟨true, true⟩
      [strBytes "http://a/", strBytes "http://b/"]).1.failed =
        [strBytes "http://a/", strBytes "http://b/"].length ∧
    (processRun (fun _ => none) (fun _ => strBytes "h")
      (fun u => if u = strBytes "http://a/"
        then Outcome.ok ⟨u, [], [], [], strBytes "hi"⟩ ⟨[], []⟩
        else Outcome.err (strBytes "boom"))
      (fun _ => []) ⟨true, true⟩
      [strBytes "http://a/", strBytes "http://b/"]).1.results.map
      (fun rec => rec.url) = [strBytes "http://a/", strBytes "http://b/"] :=
  have h := c6_manifest (fun _ => none) (fun _ => strBytes "h")
    (fun u => if u = strBytes "http://a/"
      then Outcome.ok ⟨u, [], [], [], strBytes "hi"⟩ ⟨[], []⟩
      else Outcome.err (strBytes "boom"))
    (fun _ => []) ⟨true, true⟩
    [strBytes "http://a/", strBytes "http://b/"] (by decide)
  ⟨h.1, h.2.1, h.2.2.1⟩
